import Mathlib

/-!
Verification of the ExponenTile board engine
(`ember-tile-game/app/game/board.ts`) against its specification.

The board is column-major (`board[x][y]`), modelled as a list of columns.
Coordinates are integers, because the source performs arithmetic that can
leave the board (`x - 1` at the left edge, swipe overshoot), and checks
bounds explicitly.  Randomness (`Math.random`) is modelled by an injectable
supply indexed by draw number, as the spec prescribes for testability.
JavaScript numbers appearing here are non-negative integers throughout the
engine, so tile values, ids and points are `Nat`.
-/

structure Position where
  x : Int
  y : Int
deriving DecidableEq

structure Tile where
  id : Nat
  value : Nat
  removed : Bool
  mergedTo : Option Position
deriving DecidableEq

/-- The board is a list of columns of tiles (`board[x][y]`). -/
abbrev Board := List (List Tile)

structure BoardPoints where
  board : Board
  points : Nat
deriving DecidableEq

structure MatchedTile where
  newValue : Nat
  matchedTiles : List Position
  origin : Position
deriving DecidableEq

def defaultTile : Tile := { id := 0, value := 0, removed := false, mergedTo := none }

/-- `board[x]` in JavaScript: `undefined` for an index outside the array. -/
def colAt (b : Board) (x : Int) : Option (List Tile) :=
  if 0 ≤ x then b[x.toNat]? else none

/-- `board[x]?.[y]`: the cell when both indices are in range. -/
def cellAt (b : Board) (p : Position) : Option Tile :=
  match colAt b p.x with
  | some col => if 0 ≤ p.y then col[p.y.toNat]? else none
  | none => none

def inBoundsPos (b : Board) (p : Position) : Prop := (cellAt b p).isSome

instance (b : Board) (p : Position) : Decidable (inBoundsPos b p) := by
  unfold inBoundsPos; infer_instance

/-- `tileAt` throws on out-of-bounds in the source; it is modelled totally
with a default tile and only ever used at in-bounds positions. -/
def tileAt (b : Board) (p : Position) : Tile :=
  (cellAt b p).getD defaultTile

/-- `setTile`: writes a cell.  In-range writes only in the source. -/
def setTile (b : Board) (p : Position) (t : Tile) : Board :=
  if 0 ≤ p.x ∧ 0 ≤ p.y then
    b.set p.x.toNat ((b.getD p.x.toNat []).set p.y.toNat t)
  else b

/-- Injectable randomness: the n-th draw of `Math.random`, split into the
id stream and the raw value stream used by `getRandomTileId` /
`getRandomTileValue`. -/
structure RandomSupply where
  ids : Nat → Nat
  raw : Nat → Nat

/-- `Math.floor(Math.random() * 4) + 1` : a value in {1,2,3,4}. -/
def getRandomTileValue (s : RandomSupply) (n : Nat) : Nat := s.raw n % 4 + 1

def getRandomTile (s : RandomSupply) (n : Nat) : Tile :=
  { id := s.ids n, value := getRandomTileValue s n, removed := false, mergedTo := none }

/-- `positionToNumber`: `y * board.length + x`. -/
def positionToNumber (p : Position) (b : Board) : Int :=
  p.y * b.length + p.x

/-- `copyBoard` produces a fresh column-and-cell structure; on immutable
values the copy is the value itself (the heap model below tracks the
allocation behaviour separately). -/
def copyBoard (b : Board) : Board := b

def isAdjacent (a b : Position) : Bool :=
  (a.x == b.x && (a.y - b.y).natAbs == 1) || (a.y == b.y && (a.x - b.x).natAbs == 1)

/-- Loop of `getSameTilesUp`: scan `y = p.y - 1, p.y - 2, ...` while the
value matches.  The argument is the exclusive upper end of the unscanned
region, so `Nat.succ y` inspects index `y`. -/
def getSameTilesUpAux (x : Int) (col : List Tile) (v : Nat) : Nat → List Position
  | 0 => []
  | Nat.succ y =>
    match col[y]? with
    | some c => if c.value = v then ⟨x, (y : Int)⟩ :: getSameTilesUpAux x col v y else []
    | none => []

def getSameTilesUp (p : Position) (b : Board) : List Position :=
  let t := tileAt b p
  match colAt b p.x with
  | none => []
  | some col => if 0 ≤ p.y then getSameTilesUpAux p.x col t.value p.y.toNat else []

/-- Loop of `getSameTilesDown`: scan `y = p.y + 1, p.y + 2, ...` while the
value matches; `col[y]?` is `none` past the end, matching the loop bound.
The fuel is an upper bound on the remaining iterations. -/
def getSameTilesDownAux (x : Int) (col : List Tile) (v : Nat) : Nat → Nat → List Position
  | 0, _ => []
  | Nat.succ fuel, y =>
    match col[y]? with
    | some c => if c.value = v then ⟨x, (y : Int)⟩ :: getSameTilesDownAux x col v fuel (y + 1) else []
    | none => []

def getSameTilesDown (p : Position) (b : Board) : List Position :=
  let t := tileAt b p
  match colAt b p.x with
  | none => []
  | some col =>
    if 0 ≤ p.y then getSameTilesDownAux p.x col t.value col.length (p.y.toNat + 1) else []

/-- Loop of `getSameTilesLeft`: scan `x = p.x - 1, p.x - 2, ...`. -/
def getSameTilesLeftAux (y : Int) (b : Board) (v : Nat) : Nat → List Position
  | 0 => []
  | Nat.succ x =>
    match cellAt b ⟨(x : Int), y⟩ with
    | some c => if c.value = v then ⟨(x : Int), y⟩ :: getSameTilesLeftAux y b v x else []
    | none => []

def getSameTilesLeft (p : Position) (b : Board) : List Position :=
  let t := tileAt b p
  if 0 ≤ p.x then getSameTilesLeftAux p.y b t.value p.x.toNat else []

/-- Loop of `getSameTilesRight`: scan `x = p.x + 1, ...` while in range. -/
def getSameTilesRightAux (y : Int) (b : Board) (v : Nat) : Nat → Nat → List Position
  | 0, _ => []
  | Nat.succ fuel, x =>
    match cellAt b ⟨(x : Int), y⟩ with
    | some c => if c.value = v then ⟨(x : Int), y⟩ :: getSameTilesRightAux y b v fuel (x + 1) else []
    | none => []

def getSameTilesRight (p : Position) (b : Board) : List Position :=
  let t := tileAt b p
  if 0 ≤ p.x then getSameTilesRightAux p.y b t.value b.length (p.x.toNat + 1) else []

/-- `getMatchedTile`: a match requires at least 2 same-valued neighbours in
an axis; qualifying axes are consumed together, vertical first
(`up ++ down`), then horizontal (`right ++ left`). -/
def getMatchedTile (p : Position) (b : Board) : Option MatchedTile :=
  let tile := tileAt b p
  let tilesUp := getSameTilesUp p b
  let tilesDown := getSameTilesDown p b
  let tilesLeft := getSameTilesLeft p b
  let tilesRight := getSameTilesRight p b
  let tilesVertical := tilesUp.length + tilesDown.length
  let tilesHorizontal := tilesLeft.length + tilesRight.length
  let matchedTiles :=
    (if 2 ≤ tilesVertical then tilesUp ++ tilesDown else []) ++
    (if 2 ≤ tilesHorizontal then tilesRight ++ tilesLeft else [])
  if matchedTiles.length = 0 then none
  else some { newValue := tile.value + matchedTiles.length - 1, matchedTiles, origin := p }

def isMoveValid (f t : Position) (after : Board) : Bool :=
  isAdjacent f t && ((getMatchedTile f after).isSome || (getMatchedTile t after).isSome)

/-- The marking loop shared by `swapTile`, `findAndDoCombos` and
`moveTilesDown`: every consumed position becomes a removed tile pointing at
its match origin. -/
def markRemoved (ms : List MatchedTile) (b : Board) : Board :=
  ms.foldl (fun acc m =>
    m.matchedTiles.foldl (fun acc2 p =>
      setTile acc2 p { tileAt acc2 p with removed := true, mergedTo := some m.origin }) acc) b

/-- The `removed` set of `moveTilesDown`, as the list of position numbers of
all consumed positions. -/
def removedNumbers (ms : List MatchedTile) (b : Board) : List Int :=
  ms.foldl (fun acc m => acc ++ m.matchedTiles.map (fun p => positionToNumber p b)) []

/-- Surviving tiles of one column among indices `[0, n)`, in ascending
order: the gravity loop writes them bottom-up into the bottom slots, which
preserves exactly this order. -/
def survivorsUpTo (col : List Tile) (keep : Nat → Bool) : Nat → List Tile
  | 0 => []
  | Nat.succ y => survivorsUpTo col keep y ++ (if keep y then [col.getD y defaultTile] else [])

/-- One column after the gravity loop: surviving tiles are compacted to the
bottom and the vacated top slots are filled with fresh tiles, generated
bottom-up (the fill loop runs `y = writeY` down to `0`), so the slot `j`
from the top receives draw `cnt + (k - 1 - j)`. -/
def gravityColumn (s : RandomSupply) (cnt : Nat) (col : List Tile) (keep : Nat → Bool) :
    List Tile × Nat :=
  let survivors := survivorsUpTo col keep col.length
  let k := col.length - survivors.length
  ((List.range k).map (fun j => getRandomTile s (cnt + (k - 1 - j))) ++ survivors, cnt + k)

/-- The per-column loop of `moveTilesDown` (`x` ascending), threading the
random draw counter through the columns. -/
def gravityColumnsAux (s : RandomSupply) (b : Board) (nums : List Int) :
    List (List Tile) → Nat → Nat → List (List Tile) × Nat
  | [], _, cnt => ([], cnt)
  | col :: rest, x, cnt =>
    let keep := fun (y : Nat) => !(nums.contains (positionToNumber ⟨(x : Int), (y : Int)⟩ b))
    let (col2, cnt2) := gravityColumn s cnt col keep
    let (rest2, cnt3) := gravityColumnsAux s b nums rest (x + 1) cnt2
    (col2 :: rest2, cnt3)

/-- `moveTilesDown`: returns the board with consumed tiles marked and the
post-gravity board, plus the advanced draw counter. -/
def moveTilesDown (s : RandomSupply) (cnt : Nat) (ms : List MatchedTile) (b : Board) :
    (Board × Board) × Nat :=
  let boardWithRemovedTiles := markRemoved ms b
  let (cols, cnt2) := gravityColumnsAux s b (removedNumbers ms b) b 0 cnt
  ((boardWithRemovedTiles, cols), cnt2)

/-- `getMatchesOnBoard`: run the match detector at every cell, `x` outer,
`y` inner. -/
def getMatchesOnBoard (b : Board) : List MatchedTile :=
  (List.range b.length).flatMap (fun (x : Nat) =>
    (List.range (b.getD x []).length).filterMap (fun (y : Nat) =>
      getMatchedTile ⟨(x : Int), (y : Int)⟩ b))

/-- The comparator of `uniqueNewMatches` (`(a, b) => b.newValue - a.newValue`):
`a` precedes `b` when `a.newValue ≥ b.newValue`. -/
def matchLE (a b : MatchedTile) : Prop := b.newValue ≤ a.newValue

instance : DecidableRel matchLE := fun a b => inferInstanceAs (Decidable (b.newValue ≤ a.newValue))

instance : IsTotal MatchedTile matchLE := ⟨fun a b => le_total b.newValue a.newValue⟩

instance : IsTrans MatchedTile matchLE := ⟨fun _ _ _ h1 h2 => le_trans h2 h1⟩

/-- `Array.prototype.sort` with the descending comparator: a stable sort by
`newValue` descending.  Stable sorts under a total preorder agree, so
insertion sort reproduces the JavaScript result exactly. -/
def sortMatchesDesc (ms : List MatchedTile) : List MatchedTile :=
  List.insertionSort matchLE ms

/-- Greedy filter of `uniqueNewMatches`: accept a candidate unless its
origin or one of its consumed positions is already claimed (`seen`). -/
def uniqueNewMatchesAux (b : Board) : List MatchedTile → List Int → List MatchedTile
  | [], _ => []
  | m :: rest, seen =>
    if seen.contains (positionToNumber m.origin b) ||
        m.matchedTiles.any (fun p => seen.contains (positionToNumber p b)) then
      uniqueNewMatchesAux b rest seen
    else
      m :: uniqueNewMatchesAux b rest
        (positionToNumber m.origin b :: (seen ++ m.matchedTiles.map (fun p => positionToNumber p b)))

def uniqueNewMatches (b : Board) : List MatchedTile :=
  uniqueNewMatchesAux b (sortMatchesDesc (getMatchesOnBoard b)) []

/-- `matches.reduce((acc, m) => Math.pow(2, m.newValue) + acc, 0)`. -/
def pointsForMatches (ms : List MatchedTile) : Nat :=
  ms.foldl (fun acc m => 2 ^ m.newValue + acc) 0

/-- The upgrade loop of `findAndDoCombos`: each origin takes its match's
`newValue`. -/
def upgradeOrigins (ms : List MatchedTile) (b : Board) : Board :=
  ms.foldl (fun acc m => setTile acc m.origin { tileAt acc m.origin with value := m.newValue }) b

/-- The `while (matches.length > 0)` loop of `findAndDoCombos`.  The source
loop has no intrinsic bound (spawned tiles can keep matching), so it is
modelled with fuel; the boolean reports whether the loop actually reached
the no-matches exit condition within the fuel. -/
def findAndDoCombosAux (s : RandomSupply) :
    Nat → Nat → List MatchedTile → Board → List BoardPoints × Nat × Bool
  | 0, cnt, ms, _ => ([], cnt, ms.isEmpty)
  | Nat.succ fuel, cnt, ms, prev =>
    if ms.isEmpty then ([], cnt, true)
    else
      let newBoard := copyBoard prev
      let marked := markRemoved ms newBoard
      let upgraded := upgradeOrigins ms marked
      let ((_, afterGravity), cnt2) := moveTilesDown s cnt ms upgraded
      let (rest, cnt3, done) :=
        findAndDoCombosAux s fuel cnt2 (uniqueNewMatches afterGravity) afterGravity
      (⟨newBoard, 0⟩ :: ⟨marked, 0⟩ :: ⟨upgraded, pointsForMatches ms⟩ :: ⟨afterGravity, 0⟩ :: rest,
        cnt3, done)

def findAndDoCombos (s : RandomSupply) (cnt fuel : Nat) (b : Board) :
    List BoardPoints × Nat × Bool :=
  findAndDoCombosAux s fuel cnt (uniqueNewMatches b) (copyBoard b)

/-- `swapTile`, the move resolver: returns the ordered snapshot list. -/
def swapTile (s : RandomSupply) (cnt fuel : Nat) (f t : Position) (b : Board) :
    List BoardPoints :=
  if f.x < 0 || f.y < 0 || (b.length : Int) ≤ f.x || (b.length : Int) ≤ f.y ||
      t.x < 0 || t.y < 0 || (b.length : Int) ≤ t.x || (b.length : Int) ≤ t.y then
    [⟨b, 0⟩]
  else
    let fromTile := tileAt b f
    let toTile := tileAt b t
    let swappedBoard := setTile (setTile (copyBoard b) t fromTile) f toTile
    if !(isMoveValid f t swappedBoard) then
      [⟨swappedBoard, 0⟩, ⟨b, 0⟩]
    else
      let newBoard := copyBoard swappedBoard
      let fromMatchedTile := getMatchedTile f newBoard
      let toMatchedTile := getMatchedTile t newBoard
      let matchedTiles := fromMatchedTile.toList ++ toMatchedTile.toList
      let boardWithRemovedTilesOldValues := markRemoved matchedTiles (copyBoard newBoard)
      let upgraded0 :=
        match fromMatchedTile with
        | some m =>
          setTile (copyBoard boardWithRemovedTilesOldValues) f
            { tileAt boardWithRemovedTilesOldValues f with value := m.newValue }
        | none => copyBoard boardWithRemovedTilesOldValues
      let boardWithUpgradedValues :=
        match toMatchedTile with
        | some m => setTile upgraded0 t { tileAt upgraded0 t with value := m.newValue }
        | none => upgraded0
      let ((_, boardAfterGravity), cnt2) := moveTilesDown s cnt matchedTiles boardWithUpgradedValues
      let (boardAfterCombos, _, _) := findAndDoCombos s cnt2 fuel boardAfterGravity
      [⟨swappedBoard, 0⟩, ⟨newBoard, 0⟩, ⟨boardWithRemovedTilesOldValues, 0⟩,
        ⟨boardWithUpgradedValues, pointsForMatches matchedTiles⟩,
        ⟨boardAfterGravity, 0⟩] ++ boardAfterCombos

/-- The tentative swap of `getPositionsThatAlmostMatch`: the first write
uses the neighbour's tile, the second the saved original. -/
def swapOnBoard (b : Board) (p q : Position) : Board :=
  setTile (setTile (copyBoard b) p (tileAt b q)) q (tileAt b p)

/-- Does swapping `pr.1` and `pr.2` produce a match at either position? -/
def almostSwapMatches (b : Board) (pr : Position × Position) : Bool :=
  let tempBoard := swapOnBoard b pr.1 pr.2
  (getMatchedTile pr.1 tempBoard).isSome || (getMatchedTile pr.2 tempBoard).isSome

/-- Candidate pairs in the order the source loops visit them: positions
column-major (`x` outer, `y` inner), neighbours left, right, up, down
(`{x-1}`, `{x+1}`, `{y-1}`, `{y+1}`), out-of-range neighbours skipped. -/
def almostMatchCandidates (b : Board) : List (Position × Position) :=
  (List.range b.length).flatMap (fun (x : Nat) =>
    (List.range (b.getD x []).length).flatMap (fun (y : Nat) =>
      ([⟨(x : Int) - 1, (y : Int)⟩, ⟨(x : Int) + 1, (y : Int)⟩,
        ⟨(x : Int), (y : Int) - 1⟩, ⟨(x : Int), (y : Int) + 1⟩] : List Position).filterMap
        (fun a =>
          if a.x < 0 || (b.length : Int) ≤ a.x || a.y < 0 ||
              ((b.getD x []).length : Int) ≤ a.y then none
          else some (⟨(x : Int), (y : Int)⟩, a))))

/-- `getPositionsThatAlmostMatch`: the nested loops with early return are
the first hit of the candidate enumeration. -/
def getPositionsThatAlmostMatch (b : Board) : Option (Position × Position) :=
  (almostMatchCandidates b).find? (almostSwapMatches b)

def isGameOver (b : Board) : Bool :=
  (getPositionsThatAlmostMatch b).isNone

/-- The record `getGameStateAsString` serializes.  JSON + URI encoding form
an injective wrapper around this value, so serialization is modelled at the
value level. -/
structure SerializedGameState where
  boardNumbers : List Nat
  points : Nat
  size : Nat
  moves : Nat
deriving DecidableEq

structure GameState where
  board : Board
  points : Nat
  size : Nat
  moves : Nat
deriving DecidableEq

/-- `getGameStateAsString`: `board.flat()` concatenates the columns, so the
flattened index of cell `(x, y)` is `x * size + y`. -/
def getGameStateAsString (b : Board) (points moves : Nat) : SerializedGameState :=
  { boardNumbers := b.flatten.map (fun t => t.value)
    points := points
    size := b.length
    moves := moves }

/-- `getStateFromString`: rebuilds `board[x][y]` from
`boardNumbers[y * size + x]`, minting a fresh random tile per cell (the
draw index per cell is immaterial; none of the random fields are
observable through the persistence contract). -/
def getStateFromString (s : RandomSupply) (g : SerializedGameState) : GameState :=
  { board := (List.range g.size).map (fun x =>
      (List.range g.size).map (fun y =>
        { getRandomTile s (x * g.size + y) with
          value := g.boardNumbers.getD (y * g.size + x) (getRandomTileValue s (x * g.size + y)) }))
    points := g.points
    size := g.size
    moves := g.moves }

/-! ## Specification-side notions used by the theorems -/

def valueAt (b : Board) (p : Position) : Option Nat := (cellAt b p).map Tile.value

/-- The positions of a directed run of length `k` starting next to `p`,
stepping by `(dx, dy)`, nearest first. -/
def runPositions (p : Position) (dx dy : Int) (k : Nat) : List Position :=
  (List.range k).map (fun (j : Nat) => ⟨p.x + dx * ((j : Int) + 1), p.y + dy * ((j : Int) + 1)⟩)

/-- `k` is the length of the maximal contiguous run of value `v` next to
`p` in direction `(dx, dy)`: the first `k` neighbours carry `v` and the
scan stops at the board edge or at the first differing value. -/
def IsMaxRun (b : Board) (v : Nat) (p : Position) (dx dy : Int) (k : Nat) : Prop :=
  (∀ j : Nat, j < k →
    valueAt b ⟨p.x + dx * ((j : Int) + 1), p.y + dy * ((j : Int) + 1)⟩ = some v) ∧
  valueAt b ⟨p.x + dx * ((k : Int) + 1), p.y + dy * ((k : Int) + 1)⟩ ≠ some v

/-- The position set a match claims: its origin plus its consumed
positions. -/
def matchPositions (m : MatchedTile) : List Position := m.origin :: m.matchedTiles

/-- The cell numbers a match claims, as used by the `seenPositions` set. -/
def matchNumbers (b : Board) (m : MatchedTile) : List Int :=
  (matchPositions m).map (fun p => positionToNumber p b)

/-- A position is consumed by one of the given matches. -/
def ConsumedBy (ms : List MatchedTile) (p : Position) : Prop :=
  ∃ m ∈ ms, p ∈ m.matchedTiles

instance (ms : List MatchedTile) (p : Position) : Decidable (ConsumedBy ms p) := by
  unfold ConsumedBy; infer_instance

/-- Specification-side survivors of a column under gravity: the tiles at
non-consumed indices, bottom-relative order preserved. -/
def specSurvivors (ms : List MatchedTile) (x : Nat) (col : List Tile) : List Tile :=
  ((List.range col.length).filter
      (fun (y : Nat) => !decide (ConsumedBy ms ⟨(x : Int), (y : Int)⟩))).map
    (fun (y : Nat) => col.getD y defaultTile)

/-- Specification-side total points of a set of matches. -/
def sumMatchPoints (ms : List MatchedTile) : Nat :=
  (ms.map (fun m => 2 ^ m.newValue)).sum

/-- The code's bounds check of `swapTile` (both coordinates checked against
the column count). -/
def withinBoard (b : Board) (p : Position) : Prop :=
  0 ≤ p.x ∧ 0 ≤ p.y ∧ p.x < (b.length : Int) ∧ p.y < (b.length : Int)

instance (b : Board) (p : Position) : Decidable (withinBoard b p) := by
  unfold withinBoard; infer_instance

/-- The board after exchanging the `from` and `to` tiles, as `swapTile`
builds it. -/
def swappedBoardOf (f t : Position) (b : Board) : Board :=
  setTile (setTile (copyBoard b) t (tileAt b f)) f (tileAt b t)

/-- The matches `swapTile` resolves: the match at `from`, then the match at
`to`, each when present. -/
def swapMatchesOf (f t : Position) (b : Board) : List MatchedTile :=
  (getMatchedTile f (swappedBoardOf f t b)).toList ++
    (getMatchedTile t (swappedBoardOf f t b)).toList

/-- The consumed-marking snapshot board of a valid swap. -/
def markedBoardOf (f t : Position) (b : Board) : Board :=
  markRemoved (swapMatchesOf f t b) (swappedBoardOf f t b)

/-- The value-upgrade snapshot board of a valid swap. -/
def upgradedBoardOf (f t : Position) (b : Board) : Board :=
  let marked := markedBoardOf f t b
  let u0 :=
    match getMatchedTile f (swappedBoardOf f t b) with
    | some m => setTile marked f { tileAt marked f with value := m.newValue }
    | none => marked
  match getMatchedTile t (swappedBoardOf f t b) with
  | some m => setTile u0 t { tileAt u0 t with value := m.newValue }
  | none => u0

/-- The post-gravity snapshot board of a valid swap. -/
def gravityBoardOf (s : RandomSupply) (cnt : Nat) (f t : Position) (b : Board) : Board :=
  ((moveTilesDown s cnt (swapMatchesOf f t b) (upgradedBoardOf f t b)).1).2

/-- The random-draw counter after the swap-step gravity. -/
def gravityCntOf (s : RandomSupply) (cnt : Nat) (f t : Position) (b : Board) : Nat :=
  (moveTilesDown s cnt (swapMatchesOf f t b) (upgradedBoardOf f t b)).2

/-- Modelled from the spec: the spec describes the hint scan's neighbour
order as up, down, left, right (`{y-1}`, `{y+1}`, `{x-1}`, `{x+1}`); this
candidate enumeration follows the spec text, to be compared with the
source order. -/
def almostMatchCandidatesSpecOrder (b : Board) : List (Position × Position) :=
  (List.range b.length).flatMap (fun (x : Nat) =>
    (List.range (b.getD x []).length).flatMap (fun (y : Nat) =>
      ([⟨(x : Int), (y : Int) - 1⟩, ⟨(x : Int), (y : Int) + 1⟩,
        ⟨(x : Int) - 1, (y : Int)⟩, ⟨(x : Int) + 1, (y : Int)⟩] : List Position).filterMap
        (fun a =>
          if a.x < 0 || (b.length : Int) ≤ a.x || a.y < 0 ||
              ((b.getD x []).length : Int) ≤ a.y then none
          else some (⟨(x : Int), (y : Int)⟩, a))))

/-- Modelled from the spec: the hint finder under the spec's stated
neighbour order. -/
def almostMatchSpecOrder (b : Board) : Option (Position × Position) :=
  (almostMatchCandidatesSpecOrder b).find? (almostSwapMatches b)

/-! ## Heap model for the allocation and write behaviour

The source mutates only boards it has freshly created with `copyBoard`;
this model makes that observable.  A heap is a list of allocated `Board`
values; `copyBoard` allocates a new slot, and the in-place `setTile` loops
a function performs on one of its own copies are a store to that slot. -/

abbrev Heap := List Board

def hget (h : Heap) (r : Nat) : Board := h.getD r []

/-- `copyBoard`: allocate a fresh slot holding the copied value. -/
def halloc (h : Heap) (b : Board) : Heap × Nat := (h ++ [b], h.length)

/-- Store a new value in an existing slot (the net effect of the source's
in-place `setTile` writes on that board). -/
def hput (h : Heap) (r : Nat) (b : Board) : Heap := h.set r b

/-- Heap version of `moveTilesDown`: copies the input board twice (the
marked board and the gravity board) and writes only to those fresh slots.
Returns the heap, the marked-board slot, the gravity-board slot and the
advanced draw counter. -/
def moveTilesDownH (s : RandomSupply) (cnt : Nat) (ms : List MatchedTile) (r : Nat)
    (h : Heap) : Heap × Nat × Nat × Nat :=
  let (h1, rMarked) := halloc h (hget h r)
  let h2 := hput h1 rMarked (markRemoved ms (hget h r))
  let (h3, rNew) := halloc h2 (hget h2 r)
  let h4 := hput h3 rNew
    ((gravityColumnsAux s (hget h2 r) (removedNumbers ms (hget h2 r)) (hget h2 r) 0 cnt).1)
  (h4, rMarked, rNew,
    (gravityColumnsAux s (hget h2 r) (removedNumbers ms (hget h2 r)) (hget h2 r) 0 cnt).2)

/-- Heap version of the `findAndDoCombos` loop body (allocations and
stores written with explicit projections). -/
def findAndDoCombosHAux (s : RandomSupply) :
    Nat → Nat → List MatchedTile → Nat → Heap → Heap × List (Nat × Nat) × Nat
  | 0, cnt, _, _, h => (h, [], cnt)
  | Nat.succ fuel, cnt, ms, rPrev, h =>
    if ms.isEmpty then (h, [], cnt)
    else
      let h1 := (halloc h (hget h rPrev)).1
      let rNewBoard := h.length
      let h2 := (halloc h1 (hget h1 rNewBoard)).1
      let rMarked := h1.length
      let h3 := hput h2 rMarked (markRemoved ms (hget h2 rNewBoard))
      let h4 := (halloc h3 (hget h3 rMarked)).1
      let rUpgraded := h3.length
      let h5 := hput h4 rUpgraded (upgradeOrigins ms (hget h4 rMarked))
      let h6 := (moveTilesDownH s cnt ms rUpgraded h5).1
      let rGrav := (moveTilesDownH s cnt ms rUpgraded h5).2.2.1
      let cnt2 := (moveTilesDownH s cnt ms rUpgraded h5).2.2.2
      let recres := findAndDoCombosHAux s fuel cnt2 (uniqueNewMatches (hget h6 rGrav)) rGrav h6
      (recres.1, (rNewBoard, 0) :: (rMarked, 0) :: (rUpgraded, pointsForMatches ms) ::
        (rGrav, 0) :: recres.2.1, recres.2.2)

/-- Heap version of `findAndDoCombos`: `previousBoard = copyBoard(board)`
allocates, then the loop runs. -/
def findAndDoCombosH (s : RandomSupply) (fuel cnt : Nat) (r : Nat) (h : Heap) :
    Heap × List (Nat × Nat) × Nat :=
  findAndDoCombosHAux s fuel cnt (uniqueNewMatches (hget h r)) h.length (halloc h (hget h r)).1

/-- Heap version of `swapTile`: every board it hands back is either the
caller's slot `r` (the echoes of the rejecting paths) or a slot it
allocated itself; no write ever targets `r`. -/
def swapTileH (s : RandomSupply) (cnt fuel : Nat) (f t : Position) (r : Nat) (h : Heap) :
    Heap × List (Nat × Nat) :=
  let b := hget h r
  let h1 := (halloc h b).1
  let rSwapped := h.length
  if f.x < 0 || f.y < 0 || (b.length : Int) ≤ f.x || (b.length : Int) ≤ f.y ||
      t.x < 0 || t.y < 0 || (b.length : Int) ≤ t.x || (b.length : Int) ≤ t.y then
    (h1, [(r, 0)])
  else
    let h2 := hput h1 rSwapped (setTile (setTile (hget h1 rSwapped) t (tileAt b f)) f (tileAt b t))
    if !(isMoveValid f t (hget h2 rSwapped)) then
      (h2, [(rSwapped, 0), (r, 0)])
    else
      let h3 := (halloc h2 (hget h2 rSwapped)).1
      let rNew := h2.length
      let ms := (getMatchedTile f (hget h3 rNew)).toList ++ (getMatchedTile t (hget h3 rNew)).toList
      let h4 := (halloc h3 (hget h3 rNew)).1
      let rMarked := h3.length
      let h5 := hput h4 rMarked (markRemoved ms (hget h4 rNew))
      let h6 := (halloc h5 (hget h5 rMarked)).1
      let rUpgraded := h5.length
      let u0 :=
        match getMatchedTile f (hget h3 rNew) with
        | some m =>
          setTile (hget h6 rUpgraded) f { tileAt (hget h6 rUpgraded) f with value := m.newValue }
        | none => hget h6 rUpgraded
      let h7 := hput h6 rUpgraded
        (match getMatchedTile t (hget h3 rNew) with
          | some m => setTile u0 t { tileAt u0 t with value := m.newValue }
          | none => u0)
      let h8 := (moveTilesDownH s cnt ms rUpgraded h7).1
      let rGrav := (moveTilesDownH s cnt ms rUpgraded h7).2.2.1
      let cnt2 := (moveTilesDownH s cnt ms rUpgraded h7).2.2.2
      let hc := findAndDoCombosH s fuel cnt2 rGrav h8
      (hc.1, (rSwapped, 0) :: (rNew, 0) :: (rMarked, 0) :: (rUpgraded, pointsForMatches ms) ::
        (rGrav, 0) :: hc.2.1)

/-- Heaps related by "only growth": old slots keep their contents. -/
def Preserves (h h2 : Heap) : Prop :=
  h.length ≤ h2.length ∧ ∀ r : Nat, r < h.length → hget h2 r = hget h r

/-! ## Concrete boards and supplies used by witnesses and counterexamples -/

def plainTile (v : Nat) : Tile := { id := 0, value := v, removed := false, mergedTo := none }

def plainBoard (cols : List (List Nat)) : Board := cols.map (fun c => c.map plainTile)

def exampleSupply : RandomSupply := ⟨fun n => 100 + n, fun n => n⟩

/-- A board on which swapping `(0,0)` and `(0,1)` creates one horizontal
run of three tiles of value 3 in row 1, and the cascade settles at once. -/
def bSwapEx : Board := plainBoard [[3, 9, 2], [8, 3, 2], [6, 3, 5]]

/-- A board that already contains a match (column 0 is three 1s). -/
def bMatchful : Board := plainBoard [[1, 1, 1], [2, 3, 4], [5, 6, 7]]

/-- A board whose first scanned position `(0,0)` has two qualifying
almost-match neighbours: the right one `(1,0)` and the lower one `(0,1)`. -/
def bHintEx : Board := plainBoard [[2, 1, 3], [7, 2, 2], [5, 2, 6]]

/-- A non-symmetric 2-by-2 board distinguishing a transposing round trip
from the identity. -/
def bSerEx : Board := plainBoard [[1, 2], [3, 4]]

/-! ## Basic cell lemmas -/

theorem cellAt_of_col {b : Board} {x : Int} {col : List Tile} (hcol : colAt b x = some col)
    {y : Int} (hy : 0 ≤ y) : cellAt b ⟨x, y⟩ = col[y.toNat]? := by
  simp [cellAt, hcol, hy]

theorem cellAt_neg_y {b : Board} {x y : Int} (hy : y < 0) : cellAt b ⟨x, y⟩ = none := by
  unfold cellAt
  cases hcol : colAt b x with
  | none => rfl
  | some col => simp [not_le.mpr hy]

theorem cellAt_neg_x {b : Board} {x y : Int} (hx : x < 0) : cellAt b ⟨x, y⟩ = none := by
  unfold cellAt colAt
  simp [not_le.mpr hx]

theorem colAt_of_inBounds {b : Board} {p : Position} (hp : inBoundsPos b p) :
    ∃ col, colAt b p.x = some col := by
  unfold inBoundsPos cellAt at hp
  cases hcol : colAt b p.x with
  | none => rw [hcol] at hp; simp at hp
  | some col => exact ⟨col, rfl⟩

theorem inBounds_y_nonneg {b : Board} {p : Position} (hp : inBoundsPos b p) : 0 ≤ p.y := by
  unfold inBoundsPos cellAt at hp
  cases hcol : colAt b p.x with
  | none => rw [hcol] at hp; simp at hp
  | some col =>
    rw [hcol] at hp
    by_contra hneg
    simp [hneg] at hp
theorem valueAt_neg_y {b : Board} {x y : Int} (hy : y < 0) : valueAt b ⟨x, y⟩ = none := by
  rw [valueAt, cellAt_neg_y hy]
  rfl

theorem valueAt_neg_x {b : Board} {x y : Int} (hx : x < 0) : valueAt b ⟨x, y⟩ = none := by
  rw [valueAt, cellAt_neg_x hx]
  rfl

theorem valueAt_of_col {b : Board} {x : Int} {col : List Tile} (hcol : colAt b x = some col)
    (m : Nat) : valueAt b ⟨x, (m : Int)⟩ = (col[m]?).map Tile.value := by
  rw [valueAt, cellAt_of_col hcol (by omega)]
  simp

/-! ## Maximal-run characterization of the four direction scans -/

theorem getSameTilesUpAux_spec (b : Board) (x : Int) (col : List Tile)
    (hcol : colAt b x = some col) (v : Nat) :
    ∀ n : Nat, ∃ k : Nat,
      getSameTilesUpAux x col v n =
        (List.range k).map (fun (j : Nat) => (⟨x, (n : Int) - ((j : Int) + 1)⟩ : Position)) ∧
      (∀ j : Nat, j < k → valueAt b ⟨x, (n : Int) - ((j : Int) + 1)⟩ = some v) ∧
      valueAt b ⟨x, (n : Int) - ((k : Int) + 1)⟩ ≠ some v := by
  intro n
  induction n with
  | zero =>
    refine ⟨0, by simp [getSameTilesUpAux], by simp, ?_⟩
    have h0 : valueAt b ⟨x, (-1 : Int)⟩ ≠ some v := by
      rw [valueAt_neg_y (by omega)]
      simp
    convert h0 using 2
  | succ n ih =>
    obtain ⟨k, heq, hvals, hstop⟩ := ih
    cases hc : col[n]? with
    | none =>
      refine ⟨0, by simp [getSameTilesUpAux, hc], by simp, ?_⟩
      have h0 : valueAt b ⟨x, (n : Int)⟩ ≠ some v := by
        rw [valueAt_of_col hcol, hc]
        simp
      convert h0 using 2
      all_goals congr 1
      all_goals omega
    | some c =>
      by_cases hv : c.value = v
      · refine ⟨k + 1, ?_, ?_, ?_⟩
        · have hstep : getSameTilesUpAux x col v (n + 1) =
              ⟨x, (n : Int)⟩ :: getSameTilesUpAux x col v n := by
            simp [getSameTilesUpAux, hc, hv]
          rw [hstep, heq, List.range_succ_eq_map, List.map_cons, List.map_map]
          simp only [List.cons.injEq]
          refine ⟨by congr 1 <;> omega, ?_⟩
          apply List.map_congr_left
          intro j _
          simp only [Function.comp_apply, Position.mk.injEq, true_and]
          omega
        · intro j hj
          cases j with
          | zero =>
            have h0 : valueAt b ⟨x, (n : Int)⟩ = some v := by
              rw [valueAt_of_col hcol, hc]
              simp [hv]
            convert h0 using 3
            all_goals omega
          | succ j =>
            have h0 := hvals j (by omega)
            convert h0 using 3
            all_goals omega
        · have h0 := hstop
          convert h0 using 2
          all_goals congr 1
          all_goals omega
      · refine ⟨0, by simp [getSameTilesUpAux, hc, hv], by simp, ?_⟩
        have h0 : valueAt b ⟨x, (n : Int)⟩ ≠ some v := by
          rw [valueAt_of_col hcol, hc]
          simp [hv]
        convert h0 using 2
        all_goals congr 1
        all_goals omega

theorem cellAt_ge_x {b : Board} {x y : Int} (hx : (b.length : Int) ≤ x) :
    cellAt b ⟨x, y⟩ = none := by
  unfold cellAt colAt
  have : b[x.toNat]? = none := List.getElem?_eq_none (by omega)
  simp [this]

theorem getSameTilesDownAux_spec (b : Board) (x : Int) (col : List Tile)
    (hcol : colAt b x = some col) (v : Nat) :
    ∀ fuel y : Nat, col.length ≤ y + fuel → ∃ k : Nat,
      getSameTilesDownAux x col v fuel y =
        (List.range k).map (fun (j : Nat) => (⟨x, ((y + j : Nat) : Int)⟩ : Position)) ∧
      (∀ j : Nat, j < k → valueAt b ⟨x, ((y + j : Nat) : Int)⟩ = some v) ∧
      valueAt b ⟨x, ((y + k : Nat) : Int)⟩ ≠ some v := by
  intro fuel
  induction fuel with
  | zero =>
    intro y hy
    have hc : col[y]? = none := List.getElem?_eq_none (by omega)
    refine ⟨0, by simp [getSameTilesDownAux], by simp, ?_⟩
    rw [show (((y + 0 : Nat) : Nat) : Int) = ((y : Nat) : Int) by omega, valueAt_of_col hcol, hc]
    simp
  | succ fuel ih =>
    intro y hy
    cases hc : col[y]? with
    | none =>
      refine ⟨0, by simp [getSameTilesDownAux, hc], by simp, ?_⟩
      rw [show (((y + 0 : Nat) : Nat) : Int) = ((y : Nat) : Int) by omega, valueAt_of_col hcol, hc]
      simp
    | some c =>
      by_cases hv : c.value = v
      · obtain ⟨k, heq, hvals, hstop⟩ := ih (y + 1) (by omega)
        refine ⟨k + 1, ?_, ?_, ?_⟩
        · have hstep : getSameTilesDownAux x col v (fuel + 1) y =
              ⟨x, (y : Int)⟩ :: getSameTilesDownAux x col v fuel (y + 1) := by
            simp [getSameTilesDownAux, hc, hv]
          rw [hstep, heq, List.range_succ_eq_map, List.map_cons, List.map_map]
          simp only [List.cons.injEq]
          refine ⟨by congr 1 <;> omega, ?_⟩
          apply List.map_congr_left
          intro j _
          simp only [Function.comp_apply, Position.mk.injEq, true_and]
          omega
        · intro j hj
          cases j with
          | zero =>
            have h0 : valueAt b ⟨x, (y : Int)⟩ = some v := by
              rw [valueAt_of_col hcol, hc]
              simp [hv]
            convert h0 using 3
            all_goals omega
          | succ j =>
            have h0 := hvals j (by omega)
            convert h0 using 3
            all_goals omega
        · have h0 := hstop
          convert h0 using 2
          all_goals congr 1
          all_goals omega
      · refine ⟨0, ?_, by simp, ?_⟩
        · simp [getSameTilesDownAux, hc, hv]
        · have h0 : valueAt b ⟨x, (y : Int)⟩ ≠ some v := by
            rw [valueAt_of_col hcol, hc]
            simp [hv]
          convert h0 using 2
          all_goals congr 1
          all_goals omega

theorem getSameTilesLeftAux_spec (b : Board) (y : Int) (v : Nat) :
    ∀ n : Nat, ∃ k : Nat,
      getSameTilesLeftAux y b v n =
        (List.range k).map (fun (j : Nat) => (⟨(n : Int) - ((j : Int) + 1), y⟩ : Position)) ∧
      (∀ j : Nat, j < k → valueAt b ⟨(n : Int) - ((j : Int) + 1), y⟩ = some v) ∧
      valueAt b ⟨(n : Int) - ((k : Int) + 1), y⟩ ≠ some v := by
  intro n
  induction n with
  | zero =>
    refine ⟨0, by simp [getSameTilesLeftAux], by simp, ?_⟩
    have h0 : valueAt b ⟨(-1 : Int), y⟩ ≠ some v := by
      rw [valueAt_neg_x (by omega)]
      simp
    convert h0 using 2
  | succ n ih =>
    obtain ⟨k, heq, hvals, hstop⟩ := ih
    cases hc : cellAt b ⟨(n : Int), y⟩ with
    | none =>
      refine ⟨0, by simp [getSameTilesLeftAux, hc], by simp, ?_⟩
      have h0 : valueAt b ⟨(n : Int), y⟩ ≠ some v := by
        rw [valueAt, hc]
        simp
      convert h0 using 2
      all_goals congr 1
      all_goals omega
    | some c =>
      by_cases hv : c.value = v
      · refine ⟨k + 1, ?_, ?_, ?_⟩
        · have hstep : getSameTilesLeftAux y b v (n + 1) =
              ⟨(n : Int), y⟩ :: getSameTilesLeftAux y b v n := by
            simp [getSameTilesLeftAux, hc, hv]
          rw [hstep, heq, List.range_succ_eq_map, List.map_cons, List.map_map]
          simp only [List.cons.injEq]
          refine ⟨by congr 1 <;> omega, ?_⟩
          apply List.map_congr_left
          intro j _
          simp only [Function.comp_apply, Position.mk.injEq, and_true]
          omega
        · intro j hj
          cases j with
          | zero =>
            have h0 : valueAt b ⟨(n : Int), y⟩ = some v := by
              rw [valueAt, hc]
              simp [hv]
            convert h0 using 3
            all_goals omega
          | succ j =>
            have h0 := hvals j (by omega)
            convert h0 using 3
            all_goals omega
        · have h0 := hstop
          convert h0 using 2
          all_goals congr 1
          all_goals omega
      · refine ⟨0, by simp [getSameTilesLeftAux, hc, hv], by simp, ?_⟩
        have h0 : valueAt b ⟨(n : Int), y⟩ ≠ some v := by
          rw [valueAt, hc]
          simp [hv]
        convert h0 using 2
        all_goals congr 1
        all_goals omega

theorem getSameTilesRightAux_spec (b : Board) (y : Int) (v : Nat) :
    ∀ fuel x : Nat, b.length ≤ x + fuel → ∃ k : Nat,
      getSameTilesRightAux y b v fuel x =
        (List.range k).map (fun (j : Nat) => (⟨((x + j : Nat) : Int), y⟩ : Position)) ∧
      (∀ j : Nat, j < k → valueAt b ⟨((x + j : Nat) : Int), y⟩ = some v) ∧
      valueAt b ⟨((x + k : Nat) : Int), y⟩ ≠ some v := by
  intro fuel
  induction fuel with
  | zero =>
    intro x hx
    have hc : cellAt b ⟨(x : Int), y⟩ = none := cellAt_ge_x (by omega)
    refine ⟨0, by simp [getSameTilesRightAux, hc], by simp, ?_⟩
    have h0 : valueAt b ⟨(x : Int), y⟩ ≠ some v := by
      rw [valueAt, hc]
      simp
    convert h0 using 2
    all_goals congr 1
    all_goals omega
  | succ fuel ih =>
    intro x hx
    cases hc : cellAt b ⟨(x : Int), y⟩ with
    | none =>
      refine ⟨0, by simp [getSameTilesRightAux, hc], by simp, ?_⟩
      have h0 : valueAt b ⟨(x : Int), y⟩ ≠ some v := by
        rw [valueAt, hc]
        simp
      convert h0 using 2
      all_goals congr 1
      all_goals omega
    | some c =>
      by_cases hv : c.value = v
      · obtain ⟨k, heq, hvals, hstop⟩ := ih (x + 1) (by omega)
        refine ⟨k + 1, ?_, ?_, ?_⟩
        · have hstep : getSameTilesRightAux y b v (fuel + 1) x =
              ⟨(x : Int), y⟩ :: getSameTilesRightAux y b v fuel (x + 1) := by
            simp [getSameTilesRightAux, hc, hv]
          rw [hstep, heq, List.range_succ_eq_map, List.map_cons, List.map_map]
          simp only [List.cons.injEq]
          refine ⟨by congr 1 <;> omega, ?_⟩
          apply List.map_congr_left
          intro j _
          simp only [Function.comp_apply, Position.mk.injEq, and_true]
          omega
        · intro j hj
          cases j with
          | zero =>
            have h0 : valueAt b ⟨(x : Int), y⟩ = some v := by
              rw [valueAt, hc]
              simp [hv]
            convert h0 using 3
            all_goals omega
          | succ j =>
            have h0 := hvals j (by omega)
            convert h0 using 3
            all_goals omega
        · have h0 := hstop
          convert h0 using 2
          all_goals congr 1
          all_goals omega
      · refine ⟨0, by simp [getSameTilesRightAux, hc, hv], by simp, ?_⟩
        have h0 : valueAt b ⟨(x : Int), y⟩ ≠ some v := by
          rw [valueAt, hc]
          simp [hv]
        convert h0 using 2
        all_goals congr 1
        all_goals omega

theorem inBounds_x_nonneg {b : Board} {p : Position} (hp : inBoundsPos b p) : 0 ≤ p.x := by
  obtain ⟨col, hcol⟩ := colAt_of_inBounds hp
  unfold colAt at hcol
  by_contra hneg
  simp [not_le.mp hneg, show ¬(0 ≤ p.x) from hneg] at hcol

theorem getSameTilesUp_spec (b : Board) (p : Position) (hp : inBoundsPos b p) :
    ∃ k : Nat, IsMaxRun b (tileAt b p).value p 0 (-1) k ∧
      getSameTilesUp p b = runPositions p 0 (-1) k := by
  obtain ⟨col, hcol⟩ := colAt_of_inBounds hp
  have hy := inBounds_y_nonneg hp
  have hcast : ((p.y.toNat : Nat) : Int) = p.y := Int.toNat_of_nonneg hy
  obtain ⟨k, heq, hvals, hstop⟩ :=
    getSameTilesUpAux_spec b p.x col hcol (tileAt b p).value p.y.toNat
  refine ⟨k, ⟨?_, ?_⟩, ?_⟩
  · intro j hj
    have h0 := hvals j hj
    convert h0 using 3
    all_goals omega
  · have h0 := hstop
    convert h0 using 2
    all_goals congr 1
    all_goals omega
  · rw [show getSameTilesUp p b = getSameTilesUpAux p.x col (tileAt b p).value p.y.toNat by
      simp [getSameTilesUp, hcol, hy], heq, runPositions]
    apply List.map_congr_left
    intro j _
    simp only [Position.mk.injEq]
    constructor
    all_goals omega

theorem getSameTilesDown_spec (b : Board) (p : Position) (hp : inBoundsPos b p) :
    ∃ k : Nat, IsMaxRun b (tileAt b p).value p 0 1 k ∧
      getSameTilesDown p b = runPositions p 0 1 k := by
  obtain ⟨col, hcol⟩ := colAt_of_inBounds hp
  have hy := inBounds_y_nonneg hp
  have hcast : ((p.y.toNat : Nat) : Int) = p.y := Int.toNat_of_nonneg hy
  obtain ⟨k, heq, hvals, hstop⟩ :=
    getSameTilesDownAux_spec b p.x col hcol (tileAt b p).value col.length
      (p.y.toNat + 1) (by omega)
  refine ⟨k, ⟨?_, ?_⟩, ?_⟩
  · intro j hj
    have h0 := hvals j hj
    convert h0 using 3
    all_goals omega
  · have h0 := hstop
    convert h0 using 2
    all_goals congr 1
    all_goals omega
  · rw [show getSameTilesDown p b =
        getSameTilesDownAux p.x col (tileAt b p).value col.length (p.y.toNat + 1) by
      simp [getSameTilesDown, hcol, hy], heq, runPositions]
    apply List.map_congr_left
    intro j _
    simp only [Position.mk.injEq]
    constructor
    all_goals omega

theorem getSameTilesLeft_spec (b : Board) (p : Position) (hp : inBoundsPos b p) :
    ∃ k : Nat, IsMaxRun b (tileAt b p).value p (-1) 0 k ∧
      getSameTilesLeft p b = runPositions p (-1) 0 k := by
  have hx := inBounds_x_nonneg hp
  have hcast : ((p.x.toNat : Nat) : Int) = p.x := Int.toNat_of_nonneg hx
  obtain ⟨k, heq, hvals, hstop⟩ := getSameTilesLeftAux_spec b p.y (tileAt b p).value p.x.toNat
  refine ⟨k, ⟨?_, ?_⟩, ?_⟩
  · intro j hj
    have h0 := hvals j hj
    convert h0 using 3
    all_goals omega
  · have h0 := hstop
    convert h0 using 2
    all_goals congr 1
    all_goals omega
  · rw [show getSameTilesLeft p b = getSameTilesLeftAux p.y b (tileAt b p).value p.x.toNat by
      simp [getSameTilesLeft, hx], heq, runPositions]
    apply List.map_congr_left
    intro j _
    simp only [Position.mk.injEq]
    constructor
    all_goals omega

theorem getSameTilesRight_spec (b : Board) (p : Position) (hp : inBoundsPos b p) :
    ∃ k : Nat, IsMaxRun b (tileAt b p).value p 1 0 k ∧
      getSameTilesRight p b = runPositions p 1 0 k := by
  have hx := inBounds_x_nonneg hp
  have hcast : ((p.x.toNat : Nat) : Int) = p.x := Int.toNat_of_nonneg hx
  obtain ⟨k, heq, hvals, hstop⟩ :=
    getSameTilesRightAux_spec b p.y (tileAt b p).value b.length (p.x.toNat + 1) (by omega)
  refine ⟨k, ⟨?_, ?_⟩, ?_⟩
  · intro j hj
    have h0 := hvals j hj
    convert h0 using 3
    all_goals omega
  · have h0 := hstop
    convert h0 using 2
    all_goals congr 1
    all_goals omega
  · rw [show getSameTilesRight p b =
        getSameTilesRightAux p.y b (tileAt b p).value b.length (p.x.toNat + 1) by
      simp [getSameTilesRight, hx], heq, runPositions]
    apply List.map_congr_left
    intro j _
    simp only [Position.mk.injEq]
    constructor
    all_goals omega

theorem runPositions_length (p : Position) (dx dy : Int) (k : Nat) :
    (runPositions p dx dy k).length = k := by
  simp [runPositions]

theorem mem_runPositions {p q : Position} {dx dy : Int} {k : Nat} :
    q ∈ runPositions p dx dy k ↔
      ∃ j : Nat, j < k ∧ q = ⟨p.x + dx * ((j : Int) + 1), p.y + dy * ((j : Int) + 1)⟩ := by
  simp only [runPositions, List.mem_map, List.mem_range]
  constructor
  · rintro ⟨j, hj, rfl⟩
    exact ⟨j, hj, rfl⟩
  · rintro ⟨j, hj, rfl⟩
    exact ⟨j, hj, rfl⟩

theorem runPositions_nodup (p : Position) (dx dy : Int) (k : Nat)
    (h : dx ≠ 0 ∨ dy ≠ 0) : (runPositions p dx dy k).Nodup := by
  apply List.Nodup.map
  · intro j1 j2 hj
    simp only [Position.mk.injEq] at hj
    rcases h with h | h
    · have := hj.1
      have h1 : dx * ((j1 : Int) + 1) = dx * ((j2 : Int) + 1) := by omega
      have := mul_left_cancel₀ h h1
      omega
    · have := hj.2
      have h1 : dy * ((j1 : Int) + 1) = dy * ((j2 : Int) + 1) := by omega
      have := mul_left_cancel₀ h h1
      omega
  · exact List.nodup_range k

theorem pos_not_in_vertical {p q : Position} {k : Nat} {dy : Int} (hdy : dy = 1 ∨ dy = -1)
    (hq : q ∈ runPositions p 0 dy k) : q.x = p.x ∧ q.y ≠ p.y := by
  rw [mem_runPositions] at hq
  obtain ⟨j, _, rfl⟩ := hq
  rcases hdy with rfl | rfl
  all_goals constructor
  all_goals simp
  all_goals omega

theorem pos_not_in_horizontal {p q : Position} {k : Nat} {dx : Int} (hdx : dx = 1 ∨ dx = -1)
    (hq : q ∈ runPositions p dx 0 k) : q.y = p.y ∧ q.x ≠ p.x := by
  rw [mem_runPositions] at hq
  obtain ⟨j, _, rfl⟩ := hq
  rcases hdx with rfl | rfl
  all_goals constructor
  all_goals simp
  all_goals omega

theorem vertical_pair_nodup (p : Position) (ku kd : Nat) :
    (runPositions p 0 (-1) ku ++ runPositions p 0 1 kd).Nodup := by
  refine List.Nodup.append (runPositions_nodup _ _ _ _ (by simp))
    (runPositions_nodup _ _ _ _ (by simp)) ?_
  intro q hq1 hq2
  rw [mem_runPositions] at hq1 hq2
  obtain ⟨j1, _, rfl⟩ := hq1
  obtain ⟨j2, _, h2⟩ := hq2
  simp only [Position.mk.injEq] at h2
  omega

theorem horizontal_pair_nodup (p : Position) (kr kl : Nat) :
    (runPositions p 1 0 kr ++ runPositions p (-1) 0 kl).Nodup := by
  refine List.Nodup.append (runPositions_nodup _ _ _ _ (by simp))
    (runPositions_nodup _ _ _ _ (by simp)) ?_
  intro q hq1 hq2
  rw [mem_runPositions] at hq1 hq2
  obtain ⟨j1, _, rfl⟩ := hq1
  obtain ⟨j2, _, h2⟩ := hq2
  simp only [Position.mk.injEq] at h2
  omega

/-- C1.  At every in-bounds position, `getMatchedTile` scans the four
maximal contiguous same-valued runs; an axis is consumed only with at
least two same-valued neighbours in it; when an axis (or both) qualifies,
the consumed positions are exactly the qualifying runs' positions (the
union of both axes, origin excluded, without duplicates), the result is
`none` exactly when no axis qualifies, and otherwise the new value is the
origin tile's value plus the number of consumed positions minus one. -/
theorem getMatchedTile_spec (b : Board) (p : Position) (hp : inBoundsPos b p) :
    ∃ ku kd kl kr : Nat,
      IsMaxRun b (tileAt b p).value p 0 (-1) ku ∧
      IsMaxRun b (tileAt b p).value p 0 1 kd ∧
      IsMaxRun b (tileAt b p).value p (-1) 0 kl ∧
      IsMaxRun b (tileAt b p).value p 1 0 kr ∧
      (ku + kd < 2 ∧ kl + kr < 2 → getMatchedTile p b = none) ∧
      (2 ≤ ku + kd ∨ 2 ≤ kl + kr → ∃ m : MatchedTile,
        getMatchedTile p b = some m ∧
        m.origin = p ∧
        m.matchedTiles =
          (if 2 ≤ ku + kd then runPositions p 0 (-1) ku ++ runPositions p 0 1 kd else []) ++
          (if 2 ≤ kl + kr then runPositions p 1 0 kr ++ runPositions p (-1) 0 kl else []) ∧
        m.matchedTiles.length =
          (if 2 ≤ ku + kd then ku + kd else 0) + (if 2 ≤ kl + kr then kl + kr else 0) ∧
        p ∉ m.matchedTiles ∧
        m.matchedTiles.Nodup ∧
        m.newValue = (tileAt b p).value + m.matchedTiles.length - 1) := by
  obtain ⟨ku, hups, hup⟩ := getSameTilesUp_spec b p hp
  obtain ⟨kd, hdowns, hdown⟩ := getSameTilesDown_spec b p hp
  obtain ⟨kl, hlefts, hleft⟩ := getSameTilesLeft_spec b p hp
  obtain ⟨kr, hrights, hright⟩ := getSameTilesRight_spec b p hp
  have hmt : getMatchedTile p b =
      (if ((if 2 ≤ ku + kd then runPositions p 0 (-1) ku ++ runPositions p 0 1 kd else []) ++
          (if 2 ≤ kl + kr then runPositions p 1 0 kr ++ runPositions p (-1) 0 kl else [])).length
          = 0 then none
        else some
          { newValue := (tileAt b p).value +
              ((if 2 ≤ ku + kd then runPositions p 0 (-1) ku ++ runPositions p 0 1 kd else []) ++
              (if 2 ≤ kl + kr then runPositions p 1 0 kr ++ runPositions p (-1) 0 kl
                else [])).length - 1
            matchedTiles :=
              (if 2 ≤ ku + kd then runPositions p 0 (-1) ku ++ runPositions p 0 1 kd else []) ++
              (if 2 ≤ kl + kr then runPositions p 1 0 kr ++ runPositions p (-1) 0 kl else [])
            origin := p }) := by
    rw [getMatchedTile]
    simp only [hup, hdown, hleft, hright, runPositions_length]
  refine ⟨ku, kd, kl, kr, hups, hdowns, hlefts, hrights, ?_, ?_⟩
  · rintro ⟨h1, h2⟩
    have hzero : ((if 2 ≤ ku + kd then runPositions p 0 (-1) ku ++ runPositions p 0 1 kd
        else []) ++
        (if 2 ≤ kl + kr then runPositions p 1 0 kr ++ runPositions p (-1) 0 kl
          else [])).length = 0 := by
      rw [if_neg (by omega), if_neg (by omega)]
      rfl
    rw [hmt, if_pos hzero]
  · intro hok
    rw [hmt]
    have hlen :
        ((if 2 ≤ ku + kd then runPositions p 0 (-1) ku ++ runPositions p 0 1 kd else []) ++
        (if 2 ≤ kl + kr then runPositions p 1 0 kr ++ runPositions p (-1) 0 kl
          else [])).length =
        (if 2 ≤ ku + kd then ku + kd else 0) + (if 2 ≤ kl + kr then kl + kr else 0) := by
      by_cases hv : 2 ≤ ku + kd
      all_goals by_cases hh : 2 ≤ kl + kr
      all_goals simp [hv, hh, runPositions_length]
      all_goals omega
    have hne : ¬ ((if 2 ≤ ku + kd then runPositions p 0 (-1) ku ++ runPositions p 0 1 kd
        else []) ++
        (if 2 ≤ kl + kr then runPositions p 1 0 kr ++ runPositions p (-1) 0 kl
          else [])).length = 0 := by
      rw [hlen]
      by_cases hv : 2 ≤ ku + kd
      all_goals by_cases hh : 2 ≤ kl + kr
      all_goals rcases hok with h | h
      all_goals simp [hv, hh]
      all_goals omega
    rw [if_neg hne]
    refine ⟨_, rfl, rfl, rfl, hlen, ?_, ?_, by simp [hlen]⟩
    · intro hmem
      rw [List.mem_append] at hmem
      rcases hmem with hmem | hmem
      · by_cases hv : 2 ≤ ku + kd
        · rw [if_pos hv, List.mem_append] at hmem
          rcases hmem with hmem | hmem
          · exact (pos_not_in_vertical (Or.inr rfl) hmem).2 rfl
          · exact (pos_not_in_vertical (Or.inl rfl) hmem).2 rfl
        · rw [if_neg hv] at hmem
          simp at hmem
      · by_cases hh : 2 ≤ kl + kr
        · rw [if_pos hh, List.mem_append] at hmem
          rcases hmem with hmem | hmem
          · exact (pos_not_in_horizontal (Or.inl rfl) hmem).2 rfl
          · exact (pos_not_in_horizontal (Or.inr rfl) hmem).2 rfl
        · rw [if_neg hh] at hmem
          simp at hmem
    · refine List.Nodup.append ?_ ?_ ?_
      · by_cases hv : 2 ≤ ku + kd
        · rw [if_pos hv]
          exact vertical_pair_nodup p ku kd
        · rw [if_neg hv]
          exact List.nodup_nil
      · by_cases hh : 2 ≤ kl + kr
        · rw [if_pos hh]
          exact horizontal_pair_nodup p kr kl
        · rw [if_neg hh]
          exact List.nodup_nil
      · intro q hq1 hq2
        by_cases hh : 2 ≤ kl + kr
        · rw [if_pos hh, List.mem_append] at hq2
          have hy : q.y = p.y := by
            rcases hq2 with hq2 | hq2
            · exact (pos_not_in_horizontal (Or.inl rfl) hq2).1
            · exact (pos_not_in_horizontal (Or.inr rfl) hq2).1
          by_cases hv : 2 ≤ ku + kd
          · rw [if_pos hv, List.mem_append] at hq1
            have hy2 : q.y ≠ p.y := by
              rcases hq1 with hq1 | hq1
              · exact (pos_not_in_vertical (Or.inr rfl) hq1).2
              · exact (pos_not_in_vertical (Or.inl rfl) hq1).2
            exact hy2 hy
          · rw [if_neg hv] at hq1
            simp at hq1
        · rw [if_neg hh] at hq2
          simp at hq2

/-! ## Board-scan and unique-match lemmas -/

theorem mem_getMatchesOnBoard {b : Board} {m : MatchedTile} :
    m ∈ getMatchesOnBoard b ↔ ∃ x y : Nat, x < b.length ∧ y < (b.getD x []).length ∧
      getMatchedTile ⟨(x : Int), (y : Int)⟩ b = some m := by
  simp only [getMatchesOnBoard, List.mem_flatMap, List.mem_filterMap, List.mem_range]
  constructor
  · rintro ⟨x, hx, y, hy, hm⟩
    exact ⟨x, y, hx, hy, hm⟩
  · rintro ⟨x, y, hx, hy, hm⟩
    exact ⟨x, hx, y, hy, hm⟩

theorem colAt_lt {b : Board} {x : Nat} (hx : x < b.length) :
    colAt b (x : Int) = some (b.getD x []) := by
  unfold colAt
  rw [if_pos (by omega)]
  rw [show ((x : Int)).toNat = x by omega]
  rw [List.getElem?_eq_getElem hx]
  congr 1
  exact (List.getD_eq_getElem b [] hx).symm

theorem inBounds_of_lt {b : Board} {x y : Nat} (hx : x < b.length)
    (hy : y < (b.getD x []).length) : inBoundsPos b ⟨(x : Int), (y : Int)⟩ := by
  unfold inBoundsPos
  rw [cellAt_of_col (colAt_lt hx) (by omega)]
  rw [show ((y : Int)).toNat = y by omega]
  rw [List.getElem?_eq_getElem hy]
  rfl

theorem inBounds_x_lt {b : Board} {p : Position} (hp : inBoundsPos b p) :
    p.x < (b.length : Int) := by
  obtain ⟨col, hcol⟩ := colAt_of_inBounds hp
  unfold colAt at hcol
  rw [if_pos (inBounds_x_nonneg hp)] at hcol
  have := List.getElem?_eq_some_iff.mp hcol
  obtain ⟨hlt, _⟩ := this
  have := inBounds_x_nonneg hp
  omega

theorem positionToNumber_inj {b : Board} {p q : Position} (hp : inBoundsPos b p)
    (hq : inBoundsPos b q) (h : positionToNumber p b = positionToNumber q b) : p = q := by
  have hpx0 := inBounds_x_nonneg hp
  have hqx0 := inBounds_x_nonneg hq
  have hpxl := inBounds_x_lt hp
  have hqxl := inBounds_x_lt hq
  unfold positionToNumber at h
  have hy : p.y = q.y := by
    rcases lt_trichotomy p.y q.y with hlt | heq | hgt
    · exfalso
      have h1 : p.y + 1 ≤ q.y := by omega
      have h2 : (p.y + 1) * (b.length : Int) ≤ q.y * (b.length : Int) :=
        mul_le_mul_of_nonneg_right h1 (by omega)
      have h3 : (p.y + 1) * (b.length : Int) = p.y * (b.length : Int) + (b.length : Int) := by
        ring
      linarith
    · exact heq
    · exfalso
      have h1 : q.y + 1 ≤ p.y := by omega
      have h2 : (q.y + 1) * (b.length : Int) ≤ p.y * (b.length : Int) :=
        mul_le_mul_of_nonneg_right h1 (by omega)
      have h3 : (q.y + 1) * (b.length : Int) = q.y * (b.length : Int) + (b.length : Int) := by
        ring
      linarith
  have hx : p.x = q.x := by
    rw [hy] at h
    exact add_left_cancel h
  cases p
  cases q
  simp_all

theorem getMatchedTile_parts {p : Position} {b : Board} {m : MatchedTile}
    (h : getMatchedTile p b = some m) :
    m.origin = p ∧ m.newValue = (tileAt b p).value + m.matchedTiles.length - 1 ∧
    ∀ q ∈ m.matchedTiles,
      q ∈ getSameTilesUp p b ∨ q ∈ getSameTilesDown p b ∨
      q ∈ getSameTilesLeft p b ∨ q ∈ getSameTilesRight p b := by
  rw [getMatchedTile] at h
  by_cases hz :
      ((if 2 ≤ (getSameTilesUp p b).length + (getSameTilesDown p b).length then
        getSameTilesUp p b ++ getSameTilesDown p b else []) ++
      (if 2 ≤ (getSameTilesLeft p b).length + (getSameTilesRight p b).length then
        getSameTilesRight p b ++ getSameTilesLeft p b else [])).length = 0
  · rw [if_pos hz] at h
    exact absurd h (by simp)
  · rw [if_neg hz] at h
    have hm := (Option.some.injEq _ _).mp h
    refine ⟨by rw [← hm], by rw [← hm], ?_⟩
    intro q hq
    rw [← hm] at hq
    simp only [List.mem_append] at hq
    rcases hq with hq | hq
    · by_cases hv : 2 ≤ (getSameTilesUp p b).length + (getSameTilesDown p b).length
      · rw [if_pos hv, List.mem_append] at hq
        rcases hq with hq | hq
        · exact Or.inl hq
        · exact Or.inr (Or.inl hq)
      · rw [if_neg hv] at hq
        simp at hq
    · by_cases hh : 2 ≤ (getSameTilesLeft p b).length + (getSameTilesRight p b).length
      · rw [if_pos hh, List.mem_append] at hq
        rcases hq with hq | hq
        · exact Or.inr (Or.inr (Or.inr hq))
        · exact Or.inr (Or.inr (Or.inl hq))
      · rw [if_neg hh] at hq
        simp at hq

theorem mem_scan_inBounds {b : Board} {p : Position} (hp : inBoundsPos b p) {q : Position}
    (hq : q ∈ getSameTilesUp p b ∨ q ∈ getSameTilesDown p b ∨
      q ∈ getSameTilesLeft p b ∨ q ∈ getSameTilesRight p b) : inBoundsPos b q := by
  have hval : ∃ v, valueAt b q = some v := by
    rcases hq with hq | hq | hq | hq
    · obtain ⟨k, ⟨hvals, _⟩, heq⟩ := getSameTilesUp_spec b p hp
      rw [heq, mem_runPositions] at hq
      obtain ⟨j, hj, rfl⟩ := hq
      exact ⟨_, hvals j hj⟩
    · obtain ⟨k, ⟨hvals, _⟩, heq⟩ := getSameTilesDown_spec b p hp
      rw [heq, mem_runPositions] at hq
      obtain ⟨j, hj, rfl⟩ := hq
      exact ⟨_, hvals j hj⟩
    · obtain ⟨k, ⟨hvals, _⟩, heq⟩ := getSameTilesLeft_spec b p hp
      rw [heq, mem_runPositions] at hq
      obtain ⟨j, hj, rfl⟩ := hq
      exact ⟨_, hvals j hj⟩
    · obtain ⟨k, ⟨hvals, _⟩, heq⟩ := getSameTilesRight_spec b p hp
      rw [heq, mem_runPositions] at hq
      obtain ⟨j, hj, rfl⟩ := hq
      exact ⟨_, hvals j hj⟩
  obtain ⟨v, hv⟩ := hval
  unfold valueAt at hv
  unfold inBoundsPos
  cases hc : cellAt b q with
  | none => rw [hc] at hv; simp at hv
  | some c => simp

theorem matchesOnBoard_inBounds {b : Board} {m : MatchedTile} (hm : m ∈ getMatchesOnBoard b) :
    ∀ p ∈ matchPositions m, inBoundsPos b p := by
  rw [mem_getMatchesOnBoard] at hm
  obtain ⟨x, y, hx, hy, hmt⟩ := hm
  have hp : inBoundsPos b ⟨(x : Int), (y : Int)⟩ := inBounds_of_lt hx hy
  obtain ⟨horig, _, hmem⟩ := getMatchedTile_parts hmt
  intro p hpm
  rw [matchPositions, List.mem_cons] at hpm
  rcases hpm with rfl | hpm
  · rw [horig]
    exact hp
  · exact mem_scan_inBounds hp (hmem p hpm)

theorem blocked_iff {b : Board} {m : MatchedTile} {seen : List Int} :
    (seen.contains (positionToNumber m.origin b) ||
      m.matchedTiles.any (fun p => seen.contains (positionToNumber p b))) = true ↔
    ∃ n ∈ matchNumbers b m, n ∈ seen := by
  simp [matchNumbers, matchPositions, List.contains_iff_exists_mem_beq]

theorem uniqueNewMatchesAux_spec (b : Board) :
    ∀ (cands : List MatchedTile) (seen : List Int), cands.Pairwise matchLE →
      (∀ m ∈ uniqueNewMatchesAux b cands seen, m ∈ cands) ∧
      (∀ m ∈ uniqueNewMatchesAux b cands seen, ∀ n ∈ matchNumbers b m, n ∉ seen) ∧
      (uniqueNewMatchesAux b cands seen).Pairwise
        (fun m1 m2 => ∀ n ∈ matchNumbers b m1, n ∉ matchNumbers b m2) ∧
      (∀ c ∈ cands, c ∉ uniqueNewMatchesAux b cands seen →
        (∃ n ∈ matchNumbers b c, n ∈ seen) ∨
        ∃ a ∈ uniqueNewMatchesAux b cands seen, matchLE a c ∧
          ∃ n, n ∈ matchNumbers b a ∧ n ∈ matchNumbers b c) := by
  intro cands
  induction cands with
  | nil => intro seen _; exact ⟨by simp [uniqueNewMatchesAux], by simp [uniqueNewMatchesAux],
      by simp [uniqueNewMatchesAux], by simp⟩
  | cons m rest ih =>
    intro seen hsorted
    have hsorted_rest : rest.Pairwise matchLE := (List.pairwise_cons.mp hsorted).2
    have hle : ∀ c ∈ rest, matchLE m c := (List.pairwise_cons.mp hsorted).1
    by_cases hb : (seen.contains (positionToNumber m.origin b) ||
        m.matchedTiles.any (fun p => seen.contains (positionToNumber p b))) = true
    · have hres : uniqueNewMatchesAux b (m :: rest) seen = uniqueNewMatchesAux b rest seen := by
        rw [uniqueNewMatchesAux, if_pos hb]
      obtain ⟨ih1, ih2, ih3, ih4⟩ := ih seen hsorted_rest
      rw [hres]
      refine ⟨fun a ha => List.mem_cons_of_mem m (ih1 a ha), ih2, ih3, ?_⟩
      intro c hc hcnot
      rcases List.mem_cons.mp hc with rfl | hc
      · exact Or.inl (blocked_iff.mp hb)
      · exact ih4 c hc hcnot
    · have hres : uniqueNewMatchesAux b (m :: rest) seen =
          m :: uniqueNewMatchesAux b rest
            (positionToNumber m.origin b ::
              (seen ++ m.matchedTiles.map (fun p => positionToNumber p b))) := by
        rw [uniqueNewMatchesAux, if_neg hb]
      have hfree : ∀ n ∈ matchNumbers b m, n ∉ seen := by
        intro n hn hmem
        exact hb (blocked_iff.mpr ⟨n, hn, hmem⟩)
      have hseen2 : ∀ n, n ∈ matchNumbers b m →
          n ∈ (positionToNumber m.origin b ::
            (seen ++ m.matchedTiles.map (fun p => positionToNumber p b))) := by
        intro n hn
        rw [matchNumbers, matchPositions] at hn
        simp only [List.map_cons, List.mem_cons] at hn
        rcases hn with rfl | hn
        · exact List.mem_cons_self _ _
        · exact List.mem_cons_of_mem _ (List.mem_append_right _ hn)
      obtain ⟨ih1, ih2, ih3, ih4⟩ := ih (positionToNumber m.origin b ::
        (seen ++ m.matchedTiles.map (fun p => positionToNumber p b))) hsorted_rest
      rw [hres]
      refine ⟨?_, ?_, ?_, ?_⟩
      · intro a ha
        rcases List.mem_cons.mp ha with rfl | ha
        · exact List.mem_cons_self _ _
        · exact List.mem_cons_of_mem m (ih1 a ha)
      · intro a ha n hn
        rcases List.mem_cons.mp ha with rfl | ha
        · exact hfree n hn
        · intro hmem
          exact ih2 a ha n hn (List.mem_cons_of_mem _ (List.mem_append_left _ hmem))
      · rw [List.pairwise_cons]
        refine ⟨?_, ih3⟩
        intro a ha n hn hna
        exact ih2 a ha n hna (hseen2 n hn)
      · intro c hc hcnot
        rcases List.mem_cons.mp hc with rfl | hc
        · exact absurd (List.mem_cons_self _ _) hcnot
        · have hcnot2 : c ∉ uniqueNewMatchesAux b rest (positionToNumber m.origin b ::
              (seen ++ m.matchedTiles.map (fun p => positionToNumber p b))) := by
            intro hmem
            exact hcnot (List.mem_cons_of_mem m hmem)
          rcases ih4 c hc hcnot2 with ⟨n, hn, hnseen⟩ | ⟨a, ha, hale, n, hna, hnc⟩
          · rcases List.mem_cons.mp hnseen with rfl | hnseen
            · refine Or.inr ⟨m, List.mem_cons_self _ _, hle c hc, ?_⟩
              refine ⟨positionToNumber m.origin b, ?_, hn⟩
              rw [matchNumbers, matchPositions]
              simp
            · rcases List.mem_append.mp hnseen with hnseen | hnseen
              · exact Or.inl ⟨n, hn, hnseen⟩
              · refine Or.inr ⟨m, List.mem_cons_self _ _, hle c hc, n, ?_, hn⟩
                rw [matchNumbers, matchPositions]
                simp only [List.map_cons, List.mem_cons]
                exact Or.inr hnseen
          · exact Or.inr ⟨a, List.mem_cons_of_mem m ha, hale, n, hna, hnc⟩

theorem sortMatchesDesc_pairwise (l : List MatchedTile) :
    (sortMatchesDesc l).Pairwise matchLE :=
  List.sorted_insertionSort matchLE l

theorem sortMatchesDesc_mem {l : List MatchedTile} {m : MatchedTile} :
    m ∈ sortMatchesDesc l ↔ m ∈ l :=
  (List.perm_insertionSort matchLE l).mem_iff

/-- C3.  `uniqueNewMatches` accepts only matches detected on the board,
its accepted matches claim pairwise-disjoint position sets, and every
detected match it rejects has a position claimed by an accepted match of
`newValue` at least as large (the candidates are considered in stable
`newValue`-descending order and a candidate is skipped only when its
origin or a consumed position was already claimed). -/
theorem uniqueNewMatches_spec (b : Board) :
    (∀ m ∈ uniqueNewMatches b, m ∈ getMatchesOnBoard b) ∧
    (uniqueNewMatches b).Pairwise
      (fun m1 m2 => ∀ p ∈ matchPositions m1, p ∉ matchPositions m2) ∧
    (∀ c ∈ getMatchesOnBoard b, c ∉ uniqueNewMatches b →
      ∃ a ∈ uniqueNewMatches b, c.newValue ≤ a.newValue ∧
        ∃ p, p ∈ matchPositions a ∧ p ∈ matchPositions c) := by
  obtain ⟨h1, _, h3, h4⟩ := uniqueNewMatchesAux_spec b
    (sortMatchesDesc (getMatchesOnBoard b)) [] (sortMatchesDesc_pairwise _)
  have hsub : ∀ m ∈ uniqueNewMatches b, m ∈ getMatchesOnBoard b := by
    intro m hm
    exact sortMatchesDesc_mem.mp (h1 m hm)
  refine ⟨hsub, ?_, ?_⟩
  · refine List.Pairwise.imp_of_mem ?_ h3
    intro m1 m2 hm1 hm2 hdisj p hp1 hp2
    exact hdisj (positionToNumber p b)
      (List.mem_map_of_mem (fun q => positionToNumber q b) hp1)
      (List.mem_map_of_mem (fun q => positionToNumber q b) hp2)
  · intro c hc hcnot
    rcases h4 c (sortMatchesDesc_mem.mpr hc) hcnot with ⟨n, _, hnseen⟩ | h
    · simp at hnseen
    · obtain ⟨a, ha, hale, n, hna, hnc⟩ := h
      refine ⟨a, ha, hale, ?_⟩
      rw [matchNumbers] at hna hnc
      obtain ⟨pa, hpa, rfl⟩ := List.mem_map.mp hna
      obtain ⟨pc, hpc, hpceq⟩ := List.mem_map.mp hnc
      have hain := matchesOnBoard_inBounds (hsub a ha) pa hpa
      have hcin := matchesOnBoard_inBounds hc pc hpc
      have : pc = pa := positionToNumber_inj hcin hain hpceq
      subst this
      exact ⟨pc, hpa, hpc⟩

/-! ## Gravity lemmas -/

theorem survivorsUpTo_eq (col : List Tile) (keep : Nat → Bool) :
    ∀ n : Nat, survivorsUpTo col keep n =
      ((List.range n).filter keep).map (fun y => col.getD y defaultTile) := by
  intro n
  induction n with
  | zero => simp [survivorsUpTo]
  | succ n ih =>
    rw [survivorsUpTo, ih, List.range_succ, List.filter_append, List.map_append]
    by_cases hk : keep n
    · simp [hk]
    · simp [hk]

theorem removedNumbers_mem {ms : List MatchedTile} {b : Board} {n : Int} :
    n ∈ removedNumbers ms b ↔
      ∃ m ∈ ms, ∃ p ∈ m.matchedTiles, n = positionToNumber p b := by
  have hgen : ∀ (l : List MatchedTile) (acc : List Int),
      l.foldl (fun acc m => acc ++ m.matchedTiles.map (fun p => positionToNumber p b)) acc =
        acc ++ l.flatMap (fun m => m.matchedTiles.map (fun p => positionToNumber p b)) := by
    intro l
    induction l with
    | nil => intro acc; simp
    | cons m rest ih =>
      intro acc
      rw [List.foldl_cons, ih, List.flatMap_cons, List.append_assoc]
  rw [removedNumbers, hgen, List.nil_append, List.mem_flatMap]
  constructor
  · rintro ⟨m, hm, hn⟩
    obtain ⟨p, hp, rfl⟩ := List.mem_map.mp hn
    exact ⟨m, hm, p, hp, rfl⟩
  · rintro ⟨m, hm, p, hp, rfl⟩
    exact ⟨m, hm, List.mem_map_of_mem _ hp⟩

theorem keep_eq_notConsumed {ms : List MatchedTile} {b : Board}
    (hms : ∀ m ∈ ms, ∀ p ∈ m.matchedTiles, inBoundsPos b p) {i y : Nat}
    (hi : i < b.length) (hy : y < (b.getD i []).length) :
    (!((removedNumbers ms b).contains
        (positionToNumber ⟨(i : Int), (y : Int)⟩ b))) =
      !decide (ConsumedBy ms ⟨(i : Int), (y : Int)⟩) := by
  have hiff : (removedNumbers ms b).contains (positionToNumber ⟨(i : Int), (y : Int)⟩ b) = true ↔
      ConsumedBy ms ⟨(i : Int), (y : Int)⟩ := by
    rw [List.contains_iff_exists_mem_beq]
    constructor
    · rintro ⟨n, hn, hbeq⟩
      have hneq : n = positionToNumber ⟨(i : Int), (y : Int)⟩ b := (eq_of_beq hbeq).symm
      obtain ⟨m, hm, p, hp, rfl⟩ := removedNumbers_mem.mp hn
      have hpin := hms m hm p hp
      have hyin := inBounds_of_lt hi hy
      have : p = ⟨(i : Int), (y : Int)⟩ := positionToNumber_inj hpin hyin hneq
      subst this
      exact ⟨m, hm, hp⟩
    · rintro ⟨m, hm, hp⟩
      refine ⟨positionToNumber ⟨(i : Int), (y : Int)⟩ b,
        removedNumbers_mem.mpr ⟨m, hm, _, hp, rfl⟩, by simp⟩
  by_cases hc : ConsumedBy ms ⟨(i : Int), (y : Int)⟩
  · rw [hiff.mpr hc]
    simp [hc]
  · have hfal : ¬((removedNumbers ms b).contains
        (positionToNumber ⟨(i : Int), (y : Int)⟩ b) = true) :=
      fun h => hc (hiff.mp h)
    simp only [Bool.not_eq_true] at hfal
    rw [hfal]
    simp [hc]

theorem gravityColumnsAux_spec (s : RandomSupply) (b : Board) (nums : List Int) :
    ∀ (cols : List (List Tile)) (x cnt : Nat),
      ((gravityColumnsAux s b nums cols x cnt).1).length = cols.length ∧
      ∀ i : Nat, i < cols.length → ∃ c : Nat,
        ((gravityColumnsAux s b nums cols x cnt).1).getD i [] =
          (gravityColumn s c (cols.getD i [])
            (fun (y : Nat) =>
              !(nums.contains (positionToNumber ⟨((x + i : Nat) : Int), (y : Int)⟩ b)))).1 := by
  intro cols
  induction cols with
  | nil => intro x cnt; exact ⟨rfl, by intro i hi; simp at hi⟩
  | cons col rest ih =>
    intro x cnt
    have hres : gravityColumnsAux s b nums (col :: rest) x cnt =
        ((gravityColumn s cnt col
          (fun (y : Nat) =>
            !(nums.contains (positionToNumber ⟨(x : Int), (y : Int)⟩ b)))).1 ::
          (gravityColumnsAux s b nums rest (x + 1)
            (gravityColumn s cnt col
              (fun (y : Nat) =>
                !(nums.contains (positionToNumber ⟨(x : Int), (y : Int)⟩ b)))).2).1,
          (gravityColumnsAux s b nums rest (x + 1)
            (gravityColumn s cnt col
              (fun (y : Nat) =>
                !(nums.contains (positionToNumber ⟨(x : Int), (y : Int)⟩ b)))).2).2) := by
      rw [gravityColumnsAux]
    obtain ⟨ihlen, ihnth⟩ := ih (x + 1)
      (gravityColumn s cnt col
        (fun (y : Nat) => !(nums.contains (positionToNumber ⟨(x : Int), (y : Int)⟩ b)))).2
    constructor
    · rw [hres]
      simp only [List.length_cons]
      rw [ihlen]
    · intro i hi
      cases i with
      | zero =>
        refine ⟨cnt, ?_⟩
        rw [hres]
        rfl
      | succ j =>
        obtain ⟨c, hc⟩ := ihnth j (by simpa using Nat.lt_of_succ_lt_succ hi)
        refine ⟨c, ?_⟩
        rw [hres]
        have hstep : ((x + 1) + j : Nat) = (x + (j + 1) : Nat) := by omega
        rw [show ((col :: rest).getD (j + 1) []) = rest.getD j [] from rfl]
        rw [← hstep]
        exact hc

/-- C4.  Gravity works per column: the board keeps its column count, each
column keeps its height, and each column becomes a block of freshly
generated tiles on top of the column's non-consumed tiles in their
original relative order (compacted to the bottom).  A tile therefore never
changes its `x` coordinate. -/
theorem moveTilesDown_spec (s : RandomSupply) (cnt : Nat) (ms : List MatchedTile) (b : Board)
    (hms : ∀ m ∈ ms, ∀ p ∈ m.matchedTiles, inBoundsPos b p) :
    (((moveTilesDown s cnt ms b).1).2).length = b.length ∧
    ∀ i : Nat, i < b.length →
      ((((moveTilesDown s cnt ms b).1).2).getD i []).length = (b.getD i []).length ∧
      ∃ fresh : List Tile,
        (((moveTilesDown s cnt ms b).1).2).getD i [] =
          fresh ++ specSurvivors ms i (b.getD i []) ∧
        ∀ tl ∈ fresh, ∃ j : Nat, tl = getRandomTile s j := by
  have hmtd : ((moveTilesDown s cnt ms b).1).2 =
      (gravityColumnsAux s b (removedNumbers ms b) b 0 cnt).1 := rfl
  obtain ⟨hlen, hnth⟩ := gravityColumnsAux_spec s b (removedNumbers ms b) b 0 cnt
  refine ⟨by rw [hmtd, hlen], ?_⟩
  intro i hi
  obtain ⟨c, hc⟩ := hnth i hi
  rw [show (0 + i : Nat) = i from by omega] at hc
  rw [hmtd, hc]
  have hfilter :
      (List.range (b.getD i []).length).filter
        (fun (y : Nat) =>
          !((removedNumbers ms b).contains (positionToNumber ⟨(i : Int), (y : Int)⟩ b))) =
      (List.range (b.getD i []).length).filter
        (fun (y : Nat) => !decide (ConsumedBy ms ⟨(i : Int), (y : Int)⟩)) := by
    apply List.filter_congr
    intro y hy
    exact keep_eq_notConsumed hms hi (List.mem_range.mp hy)
  have hsurv : survivorsUpTo (b.getD i [])
      (fun (y : Nat) =>
        !((removedNumbers ms b).contains (positionToNumber ⟨(i : Int), (y : Int)⟩ b)))
      (b.getD i []).length = specSurvivors ms i (b.getD i []) := by
    rw [survivorsUpTo_eq, hfilter, specSurvivors]
  rw [gravityColumn]
  simp only [hsurv]
  constructor
  · have hle : (specSurvivors ms i (b.getD i [])).length ≤ (b.getD i []).length := by
      rw [specSurvivors, List.length_map]
      have h1 := List.length_filter_le
        (fun (y : Nat) => !decide (ConsumedBy ms ⟨(i : Int), (y : Int)⟩))
        (List.range (b.getD i []).length)
      simpa using h1
    simp only [List.length_append, List.length_map, List.length_range]
    omega
  · refine ⟨_, rfl, ?_⟩
    intro tl htl
    obtain ⟨j, _, rfl⟩ := List.mem_map.mp htl
    exact ⟨_, rfl⟩

/-! ## Move-resolver structure lemmas -/

theorem swapTile_eq (s : RandomSupply) (cnt fuel : Nat) (f t : Position) (b : Board) :
    swapTile s cnt fuel f t b =
      if f.x < 0 || f.y < 0 || (b.length : Int) ≤ f.x || (b.length : Int) ≤ f.y ||
          t.x < 0 || t.y < 0 || (b.length : Int) ≤ t.x || (b.length : Int) ≤ t.y then
        [⟨b, 0⟩]
      else if !(isMoveValid f t (swappedBoardOf f t b)) then
        [⟨swappedBoardOf f t b, 0⟩, ⟨b, 0⟩]
      else
        [⟨swappedBoardOf f t b, 0⟩, ⟨swappedBoardOf f t b, 0⟩, ⟨markedBoardOf f t b, 0⟩,
          ⟨upgradedBoardOf f t b, pointsForMatches (swapMatchesOf f t b)⟩,
          ⟨gravityBoardOf s cnt f t b, 0⟩] ++
          (findAndDoCombos s (gravityCntOf s cnt f t b) fuel (gravityBoardOf s cnt f t b)).1 := by
  rfl

theorem boundsCond_false {b : Board} {f t : Position} (hf : withinBoard b f)
    (ht : withinBoard b t) :
    (f.x < 0 || f.y < 0 || (b.length : Int) ≤ f.x || (b.length : Int) ≤ f.y ||
      t.x < 0 || t.y < 0 || (b.length : Int) ≤ t.x || (b.length : Int) ≤ t.y) = false := by
  obtain ⟨hf1, hf2, hf3, hf4⟩ := hf
  obtain ⟨ht1, ht2, ht3, ht4⟩ := ht
  simp only [Bool.or_eq_false_iff, decide_eq_false_iff_not, not_lt, not_le]
  refine ⟨⟨⟨⟨⟨⟨⟨?_, ?_⟩, ?_⟩, ?_⟩, ?_⟩, ?_⟩, ?_⟩, ?_⟩
  all_goals omega

theorem swapTile_valid_eq (s : RandomSupply) (cnt fuel : Nat) {f t : Position} {b : Board}
    (hf : withinBoard b f) (ht : withinBoard b t)
    (hv : isMoveValid f t (swappedBoardOf f t b) = true) :
    swapTile s cnt fuel f t b =
      [⟨swappedBoardOf f t b, 0⟩, ⟨swappedBoardOf f t b, 0⟩, ⟨markedBoardOf f t b, 0⟩,
        ⟨upgradedBoardOf f t b, pointsForMatches (swapMatchesOf f t b)⟩,
        ⟨gravityBoardOf s cnt f t b, 0⟩] ++
        (findAndDoCombos s (gravityCntOf s cnt f t b) fuel (gravityBoardOf s cnt f t b)).1 := by
  rw [swapTile_eq]
  rw [if_neg (by rw [boundsCond_false hf ht]; simp)]
  rw [if_neg (by rw [hv]; simp)]

theorem swapTile_invalid_eq (s : RandomSupply) (cnt fuel : Nat) {f t : Position} {b : Board}
    (hf : withinBoard b f) (ht : withinBoard b t)
    (hv : isMoveValid f t (swappedBoardOf f t b) = false) :
    swapTile s cnt fuel f t b = [⟨swappedBoardOf f t b, 0⟩, ⟨b, 0⟩] := by
  rw [swapTile_eq]
  rw [if_neg (by rw [boundsCond_false hf ht]; simp)]
  rw [if_pos (by rw [hv]; simp)]

theorem getD_cons4 {a b c d : BoardPoints} {l : List BoardPoints} (i : Nat) :
    (a :: b :: c :: d :: l).getD (i + 4) ⟨[], 0⟩ = l.getD i ⟨[], 0⟩ := by
  simp [List.getD_cons_succ]

theorem findAndDoCombosAux_shape (s : RandomSupply) :
    ∀ (fuel cnt : Nat) (ms : List MatchedTile) (prev : Board),
      ((findAndDoCombosAux s fuel cnt ms prev).1).length % 4 = 0 ∧
      ∀ i : Nat, i < ((findAndDoCombosAux s fuel cnt ms prev).1).length →
        (((findAndDoCombosAux s fuel cnt ms prev).1).getD i ⟨[], 0⟩).points ≠ 0 →
        i % 4 = 2 := by
  intro fuel
  induction fuel with
  | zero =>
    intro cnt ms prev
    exact ⟨rfl, by intro i hi; simp [findAndDoCombosAux] at hi⟩
  | succ fuel ih =>
    intro cnt ms prev
    by_cases hms : ms.isEmpty
    · rw [findAndDoCombosAux, if_pos hms]
      exact ⟨rfl, by intro i hi; simp at hi⟩
    · have hres : (findAndDoCombosAux s (fuel + 1) cnt ms prev).1 =
          ⟨copyBoard prev, 0⟩ :: ⟨markRemoved ms (copyBoard prev), 0⟩ ::
          ⟨upgradeOrigins ms (markRemoved ms (copyBoard prev)), pointsForMatches ms⟩ ::
          ⟨((moveTilesDown s cnt ms
              (upgradeOrigins ms (markRemoved ms (copyBoard prev)))).1).2, 0⟩ ::
          (findAndDoCombosAux s fuel
            (moveTilesDown s cnt ms
              (upgradeOrigins ms (markRemoved ms (copyBoard prev)))).2
            (uniqueNewMatches (((moveTilesDown s cnt ms
              (upgradeOrigins ms (markRemoved ms (copyBoard prev)))).1).2))
            (((moveTilesDown s cnt ms
              (upgradeOrigins ms (markRemoved ms (copyBoard prev)))).1).2)).1 := by
        rw [findAndDoCombosAux, if_neg hms]
      obtain ⟨ihlen, ihpts⟩ := ih
        (moveTilesDown s cnt ms (upgradeOrigins ms (markRemoved ms (copyBoard prev)))).2
        (uniqueNewMatches (((moveTilesDown s cnt ms
          (upgradeOrigins ms (markRemoved ms (copyBoard prev)))).1).2))
        (((moveTilesDown s cnt ms (upgradeOrigins ms (markRemoved ms (copyBoard prev)))).1).2)
      constructor
      · rw [hres]
        simp only [List.length_cons]
        omega
      · intro i hi hpts
        rw [hres] at hi hpts
        match i with
        | 0 => simp [List.getD_cons_zero] at hpts
        | 1 => simp [List.getD_cons_succ, List.getD_cons_zero] at hpts
        | 2 => rfl
        | 3 => simp [List.getD_cons_succ, List.getD_cons_zero] at hpts
        | (j + 4) =>
          rw [getD_cons4] at hpts
          simp only [List.length_cons] at hi
          have := ihpts j (by omega) hpts
          omega

theorem findAndDoCombosAux_points (s : RandomSupply) :
    ∀ (fuel cnt : Nat) (ms : List MatchedTile) (prev : Board), ms = uniqueNewMatches prev →
      ∀ i : Nat, i < ((findAndDoCombosAux s fuel cnt ms prev).1).length → i % 4 = 2 →
        (((findAndDoCombosAux s fuel cnt ms prev).1).getD i ⟨[], 0⟩).points =
          pointsForMatches (uniqueNewMatches
            ((((findAndDoCombosAux s fuel cnt ms prev).1).getD (i - 2) ⟨[], 0⟩).board)) := by
  intro fuel
  induction fuel with
  | zero =>
    intro cnt ms prev _ i hi
    simp [findAndDoCombosAux] at hi
  | succ fuel ih =>
    intro cnt ms prev hms i hi hmod
    by_cases hempty : ms.isEmpty
    · rw [findAndDoCombosAux, if_pos hempty] at hi
      simp at hi
    · have hres : (findAndDoCombosAux s (fuel + 1) cnt ms prev).1 =
          ⟨copyBoard prev, 0⟩ :: ⟨markRemoved ms (copyBoard prev), 0⟩ ::
          ⟨upgradeOrigins ms (markRemoved ms (copyBoard prev)), pointsForMatches ms⟩ ::
          ⟨((moveTilesDown s cnt ms
              (upgradeOrigins ms (markRemoved ms (copyBoard prev)))).1).2, 0⟩ ::
          (findAndDoCombosAux s fuel
            (moveTilesDown s cnt ms
              (upgradeOrigins ms (markRemoved ms (copyBoard prev)))).2
            (uniqueNewMatches (((moveTilesDown s cnt ms
              (upgradeOrigins ms (markRemoved ms (copyBoard prev)))).1).2))
            (((moveTilesDown s cnt ms
              (upgradeOrigins ms (markRemoved ms (copyBoard prev)))).1).2)).1 := by
        rw [findAndDoCombosAux, if_neg hempty]
      rw [hres] at hi ⊢
      match i, hmod with
      | 2, _ =>
        simp only [List.getD_cons_succ, List.getD_cons_zero]
        rw [hms]
        rfl
      | (j + 4), hmod =>
        have hj2 : 2 ≤ j := by omega
        obtain ⟨j2, rfl⟩ : ∃ j2, j = j2 + 2 := ⟨j - 2, by omega⟩
        rw [getD_cons4]
        rw [show (j2 + 2 + 4 - 2 : Nat) = (j2 + 2 - 2) + 4 by omega, getD_cons4]
        simp only [List.length_cons] at hi
        exact ih _ _ _ rfl (j2 + 2) (by omega) (by omega)

theorem findAndDoCombosAux_done (s : RandomSupply) :
    ∀ (fuel cnt : Nat) (ms : List MatchedTile) (prev : Board),
      (findAndDoCombosAux s fuel cnt ms prev).2.2 = true →
      ((findAndDoCombosAux s fuel cnt ms prev).1 = [] ∧ ms = []) ∨
      ∃ bp : BoardPoints, ((findAndDoCombosAux s fuel cnt ms prev).1).getLast? = some bp ∧
        uniqueNewMatches bp.board = [] := by
  intro fuel
  induction fuel with
  | zero =>
    intro cnt ms prev hdone
    rw [findAndDoCombosAux] at hdone ⊢
    exact Or.inl ⟨rfl, List.isEmpty_iff.mp hdone⟩
  | succ fuel ih =>
    intro cnt ms prev hdone
    by_cases hempty : ms.isEmpty
    · rw [findAndDoCombosAux, if_pos hempty]
      exact Or.inl ⟨rfl, List.isEmpty_iff.mp hempty⟩
    · have hres : (findAndDoCombosAux s (fuel + 1) cnt ms prev).1 =
          ⟨copyBoard prev, 0⟩ :: ⟨markRemoved ms (copyBoard prev), 0⟩ ::
          ⟨upgradeOrigins ms (markRemoved ms (copyBoard prev)), pointsForMatches ms⟩ ::
          ⟨((moveTilesDown s cnt ms
              (upgradeOrigins ms (markRemoved ms (copyBoard prev)))).1).2, 0⟩ ::
          (findAndDoCombosAux s fuel
            (moveTilesDown s cnt ms
              (upgradeOrigins ms (markRemoved ms (copyBoard prev)))).2
            (uniqueNewMatches (((moveTilesDown s cnt ms
              (upgradeOrigins ms (markRemoved ms (copyBoard prev)))).1).2))
            (((moveTilesDown s cnt ms
              (upgradeOrigins ms (markRemoved ms (copyBoard prev)))).1).2)).1 := by
        rw [findAndDoCombosAux, if_neg hempty]
      have hdone2 : (findAndDoCombosAux s fuel
          (moveTilesDown s cnt ms
            (upgradeOrigins ms (markRemoved ms (copyBoard prev)))).2
          (uniqueNewMatches (((moveTilesDown s cnt ms
            (upgradeOrigins ms (markRemoved ms (copyBoard prev)))).1).2))
          (((moveTilesDown s cnt ms
            (upgradeOrigins ms (markRemoved ms (copyBoard prev)))).1).2)).2.2 = true := by
        rw [findAndDoCombosAux, if_neg hempty] at hdone
        exact hdone
      rcases ih _ _ _ hdone2 with ⟨hnil, hms2⟩ | ⟨bp, hlast, hbp⟩
      · refine Or.inr ⟨⟨((moveTilesDown s cnt ms
          (upgradeOrigins ms (markRemoved ms (copyBoard prev)))).1).2, 0⟩, ?_, hms2⟩
        rw [hres, hnil]
        rfl
      · refine Or.inr ⟨bp, ?_, hbp⟩
        rw [hres]
        have hne : (findAndDoCombosAux s fuel
            (moveTilesDown s cnt ms
              (upgradeOrigins ms (markRemoved ms (copyBoard prev)))).2
            (uniqueNewMatches (((moveTilesDown s cnt ms
              (upgradeOrigins ms (markRemoved ms (copyBoard prev)))).1).2))
            (((moveTilesDown s cnt ms
              (upgradeOrigins ms (markRemoved ms (copyBoard prev)))).1).2)).1 ≠ [] := by
          intro hnil
          rw [hnil] at hlast
          simp at hlast
        cases hrest : (findAndDoCombosAux s fuel
            (moveTilesDown s cnt ms
              (upgradeOrigins ms (markRemoved ms (copyBoard prev)))).2
            (uniqueNewMatches (((moveTilesDown s cnt ms
              (upgradeOrigins ms (markRemoved ms (copyBoard prev)))).1).2))
            (((moveTilesDown s cnt ms
              (upgradeOrigins ms (markRemoved ms (copyBoard prev)))).1).2)).1 with
        | nil => exact absurd hrest hne
        | cons r rl =>
          rw [hrest] at hlast
          rw [List.getLast?_cons_cons, List.getLast?_cons_cons, List.getLast?_cons_cons,
            List.getLast?_cons_cons]
          exact hlast

theorem getD_cons5 {a b c d e : BoardPoints} {l : List BoardPoints} (i : Nat) :
    (a :: b :: c :: d :: e :: l).getD (i + 5) ⟨[], 0⟩ = l.getD i ⟨[], 0⟩ := by
  simp [List.getD_cons_succ]

/-- C7.  For in-bounds positions that are not cardinally adjacent, or whose
exchange produces no match at either swapped position, `swapTile` returns
exactly two snapshots — the swapped board, then the original board — both
carrying 0 points. -/
theorem swapTile_invalid_roundtrip (s : RandomSupply) (cnt fuel : Nat) {f t : Position}
    {b : Board} (hf : withinBoard b f) (ht : withinBoard b t)
    (hinv : isAdjacent f t = false ∨
      (getMatchedTile f (swappedBoardOf f t b) = none ∧
        getMatchedTile t (swappedBoardOf f t b) = none)) :
    swapTile s cnt fuel f t b = [⟨swappedBoardOf f t b, 0⟩, ⟨b, 0⟩] := by
  apply swapTile_invalid_eq s cnt fuel hf ht
  unfold isMoveValid
  rcases hinv with h | ⟨h1, h2⟩
  · rw [h]
    rfl
  · rw [h1, h2]
    simp

theorem swapTile_invalid_roundtrip_witness :
    withinBoard bMatchful ⟨0, 0⟩ ∧ withinBoard bMatchful ⟨2, 2⟩ ∧
    isAdjacent ⟨0, 0⟩ ⟨2, 2⟩ = false ∧
    swapTile exampleSupply 0 10 ⟨0, 0⟩ ⟨2, 2⟩ bMatchful =
      [⟨swappedBoardOf ⟨0, 0⟩ ⟨2, 2⟩ bMatchful, 0⟩, ⟨bMatchful, 0⟩] :=
  ⟨by decide, by decide, by decide,
    swapTile_invalid_roundtrip exampleSupply 0 10 (by decide) (by decide) (Or.inl (by decide))⟩

/-- C2 counterexample.  On a concrete valid swap with no cascade the
resolver returns five snapshots whose points are `[0, 0, 0, 16, 0]`: the
second snapshot repeats the swapped board unchanged (no consumed marks)
and the only nonzero-points snapshot is the fourth (index 3).  Under the
claimed list `[swapped, marked, upgraded, gravity, ...]` the second
snapshot would be the mark-consumed board (which differs from the swapped
board here) and the nonzero points would sit at index 2. -/
theorem swapTile_snapshots_counterexample :
    (swapTile exampleSupply 0 10 ⟨0, 0⟩ ⟨0, 1⟩ bSwapEx).map BoardPoints.points =
      [0, 0, 0, 16, 0] ∧
    (swapTile exampleSupply 0 10 ⟨0, 0⟩ ⟨0, 1⟩ bSwapEx).getD 1 ⟨[], 0⟩ =
      (swapTile exampleSupply 0 10 ⟨0, 0⟩ ⟨0, 1⟩ bSwapEx).getD 0 ⟨[], 0⟩ ∧
    ((swapTile exampleSupply 0 10 ⟨0, 0⟩ ⟨0, 1⟩ bSwapEx).getD 1 ⟨[], 0⟩).board =
      swappedBoardOf ⟨0, 0⟩ ⟨0, 1⟩ bSwapEx ∧
    markedBoardOf ⟨0, 0⟩ ⟨0, 1⟩ bSwapEx ≠ swappedBoardOf ⟨0, 0⟩ ⟨0, 1⟩ bSwapEx := by
  refine ⟨by decide, by decide, by decide, by decide⟩

/-- C2 (amended).  For a valid in-bounds swap the resolver returns the
swapped board twice (the raw swap and its copy), then the mark-consumed
board, then the value-upgraded board carrying the step points, then the
post-gravity board, followed by four snapshots per cascade step; nonzero
points appear only at the value-upgrade snapshots, the indices congruent
to 3 mod 4. -/
theorem swapTile_snapshot_structure (s : RandomSupply) (cnt fuel : Nat) {f t : Position}
    {b : Board} (hf : withinBoard b f) (ht : withinBoard b t)
    (hv : isMoveValid f t (swappedBoardOf f t b) = true) :
    ∃ k : Nat, (swapTile s cnt fuel f t b).length = 5 + 4 * k ∧
      (swapTile s cnt fuel f t b).getD 0 ⟨[], 0⟩ = ⟨swappedBoardOf f t b, 0⟩ ∧
      (swapTile s cnt fuel f t b).getD 1 ⟨[], 0⟩ = ⟨swappedBoardOf f t b, 0⟩ ∧
      (swapTile s cnt fuel f t b).getD 2 ⟨[], 0⟩ = ⟨markedBoardOf f t b, 0⟩ ∧
      (swapTile s cnt fuel f t b).getD 3 ⟨[], 0⟩ =
        ⟨upgradedBoardOf f t b, pointsForMatches (swapMatchesOf f t b)⟩ ∧
      (swapTile s cnt fuel f t b).getD 4 ⟨[], 0⟩ = ⟨gravityBoardOf s cnt f t b, 0⟩ ∧
      ∀ i : Nat, i < (swapTile s cnt fuel f t b).length →
        ((swapTile s cnt fuel f t b).getD i ⟨[], 0⟩).points ≠ 0 → i % 4 = 3 := by
  rw [swapTile_valid_eq s cnt fuel hf ht hv]
  simp only [List.cons_append, List.nil_append]
  obtain ⟨hlen, hpts⟩ := findAndDoCombosAux_shape s fuel (gravityCntOf s cnt f t b)
    (uniqueNewMatches (gravityBoardOf s cnt f t b))
    (copyBoard (gravityBoardOf s cnt f t b))
  refine ⟨((findAndDoCombos s (gravityCntOf s cnt f t b) fuel
    (gravityBoardOf s cnt f t b)).1).length / 4, ?_, rfl, rfl, rfl, rfl, rfl, ?_⟩
  · simp only [List.length_cons]
    have : (findAndDoCombos s (gravityCntOf s cnt f t b) fuel
        (gravityBoardOf s cnt f t b)).1 =
      (findAndDoCombosAux s fuel (gravityCntOf s cnt f t b)
        (uniqueNewMatches (gravityBoardOf s cnt f t b))
        (copyBoard (gravityBoardOf s cnt f t b))).1 := rfl
    rw [this]
    omega
  · intro i hi hp
    have hcombos : (findAndDoCombos s (gravityCntOf s cnt f t b) fuel
        (gravityBoardOf s cnt f t b)).1 =
      (findAndDoCombosAux s fuel (gravityCntOf s cnt f t b)
        (uniqueNewMatches (gravityBoardOf s cnt f t b))
        (copyBoard (gravityBoardOf s cnt f t b))).1 := rfl
    match i with
    | 0 => simp [List.getD_cons_zero] at hp
    | 1 => simp [List.getD_cons_succ, List.getD_cons_zero] at hp
    | 2 => simp [List.getD_cons_succ, List.getD_cons_zero] at hp
    | 3 => rfl
    | 4 => simp [List.getD_cons_succ, List.getD_cons_zero] at hp
    | (j + 5) =>
      rw [getD_cons5, hcombos] at hp
      simp only [List.length_cons] at hi
      rw [hcombos] at hi
      have := hpts j (by omega) hp
      omega

theorem pointsForMatches_eq_sum (ms : List MatchedTile) :
    pointsForMatches ms = sumMatchPoints ms := by
  have hgen : ∀ (l : List MatchedTile) (acc : Nat),
      l.foldl (fun acc m => 2 ^ m.newValue + acc) acc = acc + (l.map (fun m => 2 ^ m.newValue)).sum := by
    intro l
    induction l with
    | nil => intro acc; simp
    | cons m rest ih =>
      intro acc
      rw [List.foldl_cons, ih, List.map_cons, List.sum_cons]
      omega
  rw [pointsForMatches, sumMatchPoints, hgen]
  omega

/-- C5.  At the swap step the value-upgrade snapshot carries the sum of
`2 ^ newValue` over that step's matches, each of whose `newValue` is the
origin tile's value plus the consumed count minus one; at every cascade
step the upgrade snapshot (index ≡ 3 mod 4) carries the sum over that
step's unique matches; and three tiles of value 3 in a row award
`2 ^ 4 = 16` points. -/
theorem upgradePoints_spec (s : RandomSupply) (cnt fuel : Nat) {f t : Position} {b : Board}
    (hf : withinBoard b f) (ht : withinBoard b t)
    (hv : isMoveValid f t (swappedBoardOf f t b) = true) :
    ((swapTile s cnt fuel f t b).getD 3 ⟨[], 0⟩).points = sumMatchPoints (swapMatchesOf f t b) ∧
    (∀ m ∈ swapMatchesOf f t b,
      m.newValue = (tileAt (swappedBoardOf f t b) m.origin).value + m.matchedTiles.length - 1) ∧
    (∀ i : Nat, i < (swapTile s cnt fuel f t b).length → 5 ≤ i → i % 4 = 3 →
      ((swapTile s cnt fuel f t b).getD i ⟨[], 0⟩).points =
        sumMatchPoints (uniqueNewMatches
          (((swapTile s cnt fuel f t b).getD (i - 2) ⟨[], 0⟩).board))) ∧
    ((swapTile exampleSupply 0 10 ⟨0, 0⟩ ⟨0, 1⟩ bSwapEx).getD 3 ⟨[], 0⟩).points = 16 := by
  rw [swapTile_valid_eq s cnt fuel hf ht hv]
  simp only [List.cons_append, List.nil_append]
  refine ⟨by rw [pointsForMatches_eq_sum]; rfl, ?_, ?_, by decide⟩
  · intro m hm
    rw [swapMatchesOf, List.mem_append] at hm
    rcases hm with hm | hm
    · rw [Option.mem_toList, Option.mem_def] at hm
      obtain ⟨horig, hval, _⟩ := getMatchedTile_parts hm
      rw [horig, hval]
    · rw [Option.mem_toList, Option.mem_def] at hm
      obtain ⟨horig, hval, _⟩ := getMatchedTile_parts hm
      rw [horig, hval]
  · intro i hi hi5 hmod
    obtain ⟨j, rfl⟩ : ∃ j, i = j + 5 := ⟨i - 5, by omega⟩
    have hj : j % 4 = 2 := by omega
    have hj2 : 2 ≤ j := by omega
    rw [getD_cons5]
    rw [show (j + 5 - 2 : Nat) = (j - 2) + 5 by omega, getD_cons5]
    have hcombos : (findAndDoCombos s (gravityCntOf s cnt f t b) fuel
        (gravityBoardOf s cnt f t b)).1 =
      (findAndDoCombosAux s fuel (gravityCntOf s cnt f t b)
        (uniqueNewMatches (gravityBoardOf s cnt f t b))
        (copyBoard (gravityBoardOf s cnt f t b))).1 := rfl
    rw [hcombos]
    simp only [List.length_cons] at hi
    rw [hcombos] at hi
    rw [← pointsForMatches_eq_sum]
    exact findAndDoCombosAux_points s fuel (gravityCntOf s cnt f t b)
      (uniqueNewMatches (gravityBoardOf s cnt f t b))
      (copyBoard (gravityBoardOf s cnt f t b)) rfl j (by omega) hj

/-- C6 counterexample.  `swapTile` on a rejected swap echoes the input
board as the last snapshot, so an input board that already contains a
match is returned with `uniqueNewMatches` nonempty. -/
theorem swapTile_last_counterexample :
    (swapTile exampleSupply 0 10 ⟨0, 0⟩ ⟨2, 2⟩ bMatchful).getLast? = some ⟨bMatchful, 0⟩ ∧
    uniqueNewMatches bMatchful ≠ [] := by
  refine ⟨by decide, by decide⟩

/-- C6 (amended).  For a valid in-bounds swap whose cascade loop reaches
its exit condition, the board of the last returned snapshot has no
matches: `uniqueNewMatches` of it is empty.  (For rejected swaps the code
echoes the unchanged input board, which may still contain matches.) -/
theorem swapTile_settled_spec (s : RandomSupply) (cnt fuel : Nat) {f t : Position} {b : Board}
    (hf : withinBoard b f) (ht : withinBoard b t)
    (hv : isMoveValid f t (swappedBoardOf f t b) = true)
    (hdone : (findAndDoCombos s (gravityCntOf s cnt f t b) fuel
      (gravityBoardOf s cnt f t b)).2.2 = true) :
    ∃ bp : BoardPoints, (swapTile s cnt fuel f t b).getLast? = some bp ∧
      uniqueNewMatches bp.board = [] := by
  rw [swapTile_valid_eq s cnt fuel hf ht hv]
  simp only [List.cons_append, List.nil_append]
  have hdone2 : (findAndDoCombosAux s fuel (gravityCntOf s cnt f t b)
      (uniqueNewMatches (gravityBoardOf s cnt f t b))
      (copyBoard (gravityBoardOf s cnt f t b))).2.2 = true := hdone
  rcases findAndDoCombosAux_done s fuel (gravityCntOf s cnt f t b)
      (uniqueNewMatches (gravityBoardOf s cnt f t b))
      (copyBoard (gravityBoardOf s cnt f t b)) hdone2 with ⟨hnil, hms⟩ | ⟨bp, hlast, hbp⟩
  · refine ⟨⟨gravityBoardOf s cnt f t b, 0⟩, ?_, hms⟩
    have : (findAndDoCombos s (gravityCntOf s cnt f t b) fuel
        (gravityBoardOf s cnt f t b)).1 =
      (findAndDoCombosAux s fuel (gravityCntOf s cnt f t b)
        (uniqueNewMatches (gravityBoardOf s cnt f t b))
        (copyBoard (gravityBoardOf s cnt f t b))).1 := rfl
    rw [this, hnil]
    rfl
  · refine ⟨bp, ?_, hbp⟩
    have hcombos : (findAndDoCombos s (gravityCntOf s cnt f t b) fuel
        (gravityBoardOf s cnt f t b)).1 =
      (findAndDoCombosAux s fuel (gravityCntOf s cnt f t b)
        (uniqueNewMatches (gravityBoardOf s cnt f t b))
        (copyBoard (gravityBoardOf s cnt f t b))).1 := rfl
    rw [hcombos]
    cases hrest : (findAndDoCombosAux s fuel (gravityCntOf s cnt f t b)
        (uniqueNewMatches (gravityBoardOf s cnt f t b))
        (copyBoard (gravityBoardOf s cnt f t b))).1 with
    | nil =>
      rw [hrest] at hlast
      simp at hlast
    | cons r rl =>
      rw [hrest] at hlast
      rw [List.getLast?_cons_cons, List.getLast?_cons_cons, List.getLast?_cons_cons,
        List.getLast?_cons_cons, List.getLast?_cons_cons]
      exact hlast

theorem getMatchedTile_spec_witness :
    inBoundsPos bMatchful ⟨0, 0⟩ ∧
    (∃ ku kd kl kr : Nat,
      IsMaxRun bMatchful (tileAt bMatchful ⟨0, 0⟩).value ⟨0, 0⟩ 0 (-1) ku ∧
      IsMaxRun bMatchful (tileAt bMatchful ⟨0, 0⟩).value ⟨0, 0⟩ 0 1 kd ∧
      IsMaxRun bMatchful (tileAt bMatchful ⟨0, 0⟩).value ⟨0, 0⟩ (-1) 0 kl ∧
      IsMaxRun bMatchful (tileAt bMatchful ⟨0, 0⟩).value ⟨0, 0⟩ 1 0 kr ∧
      (ku + kd < 2 ∧ kl + kr < 2 → getMatchedTile ⟨0, 0⟩ bMatchful = none) ∧
      (2 ≤ ku + kd ∨ 2 ≤ kl + kr → ∃ m : MatchedTile,
        getMatchedTile ⟨0, 0⟩ bMatchful = some m ∧
        m.origin = ⟨0, 0⟩ ∧
        m.matchedTiles =
          (if 2 ≤ ku + kd then
            runPositions ⟨0, 0⟩ 0 (-1) ku ++ runPositions ⟨0, 0⟩ 0 1 kd else []) ++
          (if 2 ≤ kl + kr then
            runPositions ⟨0, 0⟩ 1 0 kr ++ runPositions ⟨0, 0⟩ (-1) 0 kl else []) ∧
        m.matchedTiles.length =
          (if 2 ≤ ku + kd then ku + kd else 0) + (if 2 ≤ kl + kr then kl + kr else 0) ∧
        (⟨0, 0⟩ : Position) ∉ m.matchedTiles ∧
        m.matchedTiles.Nodup ∧
        m.newValue = (tileAt bMatchful ⟨0, 0⟩).value + m.matchedTiles.length - 1)) :=
  ⟨by decide, getMatchedTile_spec bMatchful ⟨0, 0⟩ (by decide)⟩

theorem swapTile_snapshot_structure_witness :
    withinBoard bSwapEx ⟨0, 0⟩ ∧ withinBoard bSwapEx ⟨0, 1⟩ ∧
    isMoveValid ⟨0, 0⟩ ⟨0, 1⟩ (swappedBoardOf ⟨0, 0⟩ ⟨0, 1⟩ bSwapEx) = true ∧
    (∃ k : Nat, (swapTile exampleSupply 0 10 ⟨0, 0⟩ ⟨0, 1⟩ bSwapEx).length = 5 + 4 * k ∧
      (swapTile exampleSupply 0 10 ⟨0, 0⟩ ⟨0, 1⟩ bSwapEx).getD 0 ⟨[], 0⟩ =
        ⟨swappedBoardOf ⟨0, 0⟩ ⟨0, 1⟩ bSwapEx, 0⟩ ∧
      (swapTile exampleSupply 0 10 ⟨0, 0⟩ ⟨0, 1⟩ bSwapEx).getD 1 ⟨[], 0⟩ =
        ⟨swappedBoardOf ⟨0, 0⟩ ⟨0, 1⟩ bSwapEx, 0⟩ ∧
      (swapTile exampleSupply 0 10 ⟨0, 0⟩ ⟨0, 1⟩ bSwapEx).getD 2 ⟨[], 0⟩ =
        ⟨markedBoardOf ⟨0, 0⟩ ⟨0, 1⟩ bSwapEx, 0⟩ ∧
      (swapTile exampleSupply 0 10 ⟨0, 0⟩ ⟨0, 1⟩ bSwapEx).getD 3 ⟨[], 0⟩ =
        ⟨upgradedBoardOf ⟨0, 0⟩ ⟨0, 1⟩ bSwapEx,
          pointsForMatches (swapMatchesOf ⟨0, 0⟩ ⟨0, 1⟩ bSwapEx)⟩ ∧
      (swapTile exampleSupply 0 10 ⟨0, 0⟩ ⟨0, 1⟩ bSwapEx).getD 4 ⟨[], 0⟩ =
        ⟨gravityBoardOf exampleSupply 0 ⟨0, 0⟩ ⟨0, 1⟩ bSwapEx, 0⟩ ∧
      ∀ i : Nat, i < (swapTile exampleSupply 0 10 ⟨0, 0⟩ ⟨0, 1⟩ bSwapEx).length →
        ((swapTile exampleSupply 0 10 ⟨0, 0⟩ ⟨0, 1⟩ bSwapEx).getD i ⟨[], 0⟩).points ≠ 0 →
        i % 4 = 3) :=
  ⟨by decide, by decide, by decide,
    swapTile_snapshot_structure exampleSupply 0 10 (by decide) (by decide) (by decide)⟩

theorem moveTilesDown_spec_witness :
    (∀ m ∈ [(⟨4, [⟨1, 1⟩, ⟨2, 1⟩], ⟨0, 1⟩⟩ : MatchedTile)],
      ∀ p ∈ m.matchedTiles, inBoundsPos bSwapEx p) ∧
    ((((moveTilesDown exampleSupply 0 [⟨4, [⟨1, 1⟩, ⟨2, 1⟩], ⟨0, 1⟩⟩] bSwapEx).1).2).length =
      bSwapEx.length ∧
    ∀ i : Nat, i < bSwapEx.length →
      ((((moveTilesDown exampleSupply 0
          [⟨4, [⟨1, 1⟩, ⟨2, 1⟩], ⟨0, 1⟩⟩] bSwapEx).1).2).getD i []).length =
        (bSwapEx.getD i []).length ∧
      ∃ fresh : List Tile,
        (((moveTilesDown exampleSupply 0
          [⟨4, [⟨1, 1⟩, ⟨2, 1⟩], ⟨0, 1⟩⟩] bSwapEx).1).2).getD i [] =
          fresh ++ specSurvivors [⟨4, [⟨1, 1⟩, ⟨2, 1⟩], ⟨0, 1⟩⟩] i (bSwapEx.getD i []) ∧
        ∀ tl ∈ fresh, ∃ j : Nat, tl = getRandomTile exampleSupply j) :=
  ⟨by decide, moveTilesDown_spec exampleSupply 0 _ bSwapEx (by decide)⟩

theorem upgradePoints_spec_witness :
    withinBoard bSwapEx ⟨0, 0⟩ ∧ withinBoard bSwapEx ⟨0, 1⟩ ∧
    isMoveValid ⟨0, 0⟩ ⟨0, 1⟩ (swappedBoardOf ⟨0, 0⟩ ⟨0, 1⟩ bSwapEx) = true ∧
    (((swapTile exampleSupply 0 10 ⟨0, 0⟩ ⟨0, 1⟩ bSwapEx).getD 3 ⟨[], 0⟩).points =
      sumMatchPoints (swapMatchesOf ⟨0, 0⟩ ⟨0, 1⟩ bSwapEx) ∧
    (∀ m ∈ swapMatchesOf ⟨0, 0⟩ ⟨0, 1⟩ bSwapEx,
      m.newValue =
        (tileAt (swappedBoardOf ⟨0, 0⟩ ⟨0, 1⟩ bSwapEx) m.origin).value +
          m.matchedTiles.length - 1) ∧
    (∀ i : Nat, i < (swapTile exampleSupply 0 10 ⟨0, 0⟩ ⟨0, 1⟩ bSwapEx).length → 5 ≤ i →
      i % 4 = 3 →
      ((swapTile exampleSupply 0 10 ⟨0, 0⟩ ⟨0, 1⟩ bSwapEx).getD i ⟨[], 0⟩).points =
        sumMatchPoints (uniqueNewMatches
          (((swapTile exampleSupply 0 10 ⟨0, 0⟩ ⟨0, 1⟩ bSwapEx).getD (i - 2) ⟨[], 0⟩).board))) ∧
    ((swapTile exampleSupply 0 10 ⟨0, 0⟩ ⟨0, 1⟩ bSwapEx).getD 3 ⟨[], 0⟩).points = 16) :=
  ⟨by decide, by decide, by decide,
    upgradePoints_spec exampleSupply 0 10 (by decide) (by decide) (by decide)⟩

theorem swapTile_settled_spec_witness :
    withinBoard bSwapEx ⟨0, 0⟩ ∧ withinBoard bSwapEx ⟨0, 1⟩ ∧
    isMoveValid ⟨0, 0⟩ ⟨0, 1⟩ (swappedBoardOf ⟨0, 0⟩ ⟨0, 1⟩ bSwapEx) = true ∧
    (findAndDoCombos exampleSupply (gravityCntOf exampleSupply 0 ⟨0, 0⟩ ⟨0, 1⟩ bSwapEx) 10
      (gravityBoardOf exampleSupply 0 ⟨0, 0⟩ ⟨0, 1⟩ bSwapEx)).2.2 = true ∧
    ∃ bp : BoardPoints,
      (swapTile exampleSupply 0 10 ⟨0, 0⟩ ⟨0, 1⟩ bSwapEx).getLast? = some bp ∧
      uniqueNewMatches bp.board = [] :=
  ⟨by decide, by decide, by decide, by decide,
    swapTile_settled_spec exampleSupply 0 10 (by decide) (by decide) (by decide) (by decide)⟩

/-! ## Hint-scan lemmas -/

theorem find?_eq_some_split {α : Type} (p : α → Bool) :
    ∀ (l : List α) (x : α), l.find? p = some x →
      p x = true ∧ ∃ l1 l2, l = l1 ++ x :: l2 ∧ ∀ y ∈ l1, p y = false := by
  intro l
  induction l with
  | nil => intro x h; simp at h
  | cons a rest ih =>
    intro x h
    cases hpa : p a with
    | true =>
      rw [List.find?_cons_of_pos _ hpa] at h
      have : a = x := by injection h
      subst this
      exact ⟨hpa, [], rest, rfl, by simp⟩
    | false =>
      rw [List.find?_cons_of_neg _ (by simp [hpa])] at h
      obtain ⟨hx, l1, l2, rfl, hl1⟩ := ih x h
      refine ⟨hx, a :: l1, l2, rfl, ?_⟩
      intro y hy
      rcases List.mem_cons.mp hy with rfl | hy
      · exact hpa
      · exact hl1 y hy

/-- C9 (amended).  The hint finder returns the first candidate pair whose
tentative swap matches, where candidates enumerate positions column-major
(`x` outer, `y` inner) and each position's in-range neighbours in the
source's order left, right, up, down; it returns `none` exactly when no
candidate qualifies.  Being a pure function of the board, repeated calls
agree. -/
theorem getPositionsThatAlmostMatch_spec (b : Board) :
    (∀ pr : Position × Position, getPositionsThatAlmostMatch b = some pr →
      almostSwapMatches b pr = true ∧
      ∃ l1 l2, almostMatchCandidates b = l1 ++ pr :: l2 ∧
        ∀ q ∈ l1, almostSwapMatches b q = false) ∧
    (getPositionsThatAlmostMatch b = none ↔
      ∀ pr ∈ almostMatchCandidates b, almostSwapMatches b pr = false) := by
  constructor
  · intro pr hpr
    exact find?_eq_some_split (almostSwapMatches b) (almostMatchCandidates b) pr hpr
  · rw [getPositionsThatAlmostMatch, List.find?_eq_none]
    constructor
    · intro h pr hpr
      have := h pr hpr
      simp at this
      exact this
    · intro h pr hpr
      simp [h pr hpr]

/-- C9 counterexample.  On `bHintEx` the first scanned position `(0,0)`
has two qualifying neighbours; the source tries left, right, up, down and
returns the right neighbour `(1,0)`, while the spec's stated order up,
down, left, right would return the lower neighbour `(0,1)` (whose swap
also matches, as the third conjunct shows). -/
theorem almostMatch_order_counterexample :
    getPositionsThatAlmostMatch bHintEx = some (⟨0, 0⟩, ⟨1, 0⟩) ∧
    almostMatchSpecOrder bHintEx = some (⟨0, 0⟩, ⟨0, 1⟩) ∧
    almostSwapMatches bHintEx (⟨0, 0⟩, ⟨0, 1⟩) = true := by
  refine ⟨by decide, by decide, by decide⟩

/-- C10 (code bug).  `getGameStateAsString` flattens the column-major
board as index `x * size + y` (`board.flat()`), but `getStateFromString`
reads index `y * size + x`; the round trip therefore transposes the
per-cell values instead of preserving them.  On `bSerEx` the cell `(0,1)`
holds value 2 but comes back holding 3 — the value of cell `(1,0)` —
while the codebase's own linearization convention (`positionToNumber`)
and the spec both fix `index = y * size + x`. -/
theorem serialization_roundTrip_transposes :
    (tileAt bSerEx ⟨0, 1⟩).value = 2 ∧
    (tileAt (getStateFromString exampleSupply (getGameStateAsString bSerEx 0 0)).board
      ⟨0, 1⟩).value = 3 ∧
    (getStateFromString exampleSupply (getGameStateAsString bSerEx 0 0)).size =
      bSerEx.length ∧
    ∀ x : Nat, x < 2 → ∀ y : Nat, y < 2 →
      (tileAt (getStateFromString exampleSupply (getGameStateAsString bSerEx 0 0)).board
        ⟨(x : Int), (y : Int)⟩).value = (tileAt bSerEx ⟨(y : Int), (x : Int)⟩).value := by
  refine ⟨by decide, by decide, by decide, by decide⟩

/-! ## Heap-model frame lemmas -/

theorem hget_append_lt {h : Heap} {b : Board} {r : Nat} (hr : r < h.length) :
    hget (h ++ [b]) r = hget h r := by
  unfold hget List.getD
  rw [List.get?_append hr]

theorem hget_set_ne {h : Heap} {b : Board} {r r2 : Nat} (hne : r ≠ r2) :
    hget (h.set r2 b) r = hget h r := by
  unfold hget List.getD
  rw [List.get?_set_ne _ _ (by omega)]

theorem Preserves.refl (h : Heap) : Preserves h h := ⟨le_refl _, fun _ _ => rfl⟩

theorem Preserves.trans {h1 h2 h3 : Heap} (p1 : Preserves h1 h2) (p2 : Preserves h2 h3) :
    Preserves h1 h3 :=
  ⟨le_trans p1.1 p2.1, fun r hr => by rw [p2.2 r (lt_of_lt_of_le hr p1.1), p1.2 r hr]⟩

theorem preserves_halloc (h : Heap) (b : Board) : Preserves h (halloc h b).1 := by
  refine ⟨by simp [halloc], ?_⟩
  intro r hr
  exact hget_append_lt hr

theorem preserves_hput {h0 h : Heap} (p : Preserves h0 h) {r : Nat} (hr : h0.length ≤ r)
    (b : Board) : Preserves h0 (hput h r b) := by
  refine ⟨by have := p.1; simp [hput]; omega, ?_⟩
  intro r2 hr2
  rw [hput, hget_set_ne (by omega)]
  exact p.2 r2 hr2

theorem hput_length (h : Heap) (r : Nat) (b : Board) : (hput h r b).length = h.length := by
  simp [hput]

theorem moveTilesDownH_frame (s : RandomSupply) (cnt : Nat) (ms : List MatchedTile) (r : Nat)
    (h : Heap) :
    Preserves h (moveTilesDownH s cnt ms r h).1 ∧
    (moveTilesDownH s cnt ms r h).2.1 = h.length ∧
    (moveTilesDownH s cnt ms r h).2.2.1 = h.length + 1 := by
  have p1 : Preserves h (h ++ [hget h r]) := preserves_halloc h (hget h r)
  have p2 : Preserves h (hput (h ++ [hget h r]) h.length (markRemoved ms (hget h r))) :=
    preserves_hput p1 (le_refl _) _
  have hlen2 : (hput (h ++ [hget h r]) h.length (markRemoved ms (hget h r))).length =
      h.length + 1 := by
    rw [hput_length]
    simp
  have p3 : Preserves h (hput (h ++ [hget h r]) h.length (markRemoved ms (hget h r)) ++
      [hget (hput (h ++ [hget h r]) h.length (markRemoved ms (hget h r))) r]) :=
    Preserves.trans p2 (preserves_halloc _ _)
  refine ⟨preserves_hput p3 (by omega) _, rfl, hlen2⟩

theorem halloc_fst_length (h : Heap) (b : Board) : ((halloc h b).1).length = h.length + 1 := by
  simp [halloc]

theorem preserves_alloc_put (h : Heap) (v w : Board) :
    Preserves h (hput (halloc h v).1 h.length w) :=
  preserves_hput (preserves_halloc h v) (le_refl _) w

theorem alloc_put_length (h : Heap) (v w : Board) :
    (hput (halloc h v).1 h.length w).length = h.length + 1 := by
  rw [hput_length, halloc_fst_length]

theorem moveTilesDownH_heap_length (s : RandomSupply) (cnt : Nat) (ms : List MatchedTile)
    (r : Nat) (h : Heap) : ((moveTilesDownH s cnt ms r h).1).length = h.length + 2 := by
  show (hput (halloc (hput (halloc h (hget h r)).1 h.length (markRemoved ms (hget h r)))
    (hget (hput (halloc h (hget h r)).1 h.length (markRemoved ms (hget h r))) r)).1
    (hput (halloc h (hget h r)).1 h.length (markRemoved ms (hget h r))).length _).length =
    h.length + 2
  rw [hput_length, halloc_fst_length, alloc_put_length]

theorem moveTilesDownH_rGrav (s : RandomSupply) (cnt : Nat) (ms : List MatchedTile)
    (r : Nat) (h : Heap) : (moveTilesDownH s cnt ms r h).2.2.1 = h.length + 1 :=
  (moveTilesDownH_frame s cnt ms r h).2.2

theorem findAndDoCombosHAux_frame (s : RandomSupply) :
    ∀ (fuel cnt : Nat) (ms : List MatchedTile) (rPrev : Nat) (h : Heap),
      Preserves h (findAndDoCombosHAux s fuel cnt ms rPrev h).1 ∧
      ∀ pr ∈ (findAndDoCombosHAux s fuel cnt ms rPrev h).2.1, h.length ≤ pr.1 := by
  intro fuel
  induction fuel with
  | zero =>
    intro cnt ms rPrev h
    exact ⟨Preserves.refl h, by intro pr hpr; simp [findAndDoCombosHAux] at hpr⟩
  | succ fuel ih =>
    intro cnt ms rPrev h
    by_cases hempty : ms.isEmpty
    · rw [findAndDoCombosHAux, if_pos hempty]
      exact ⟨Preserves.refl h, by intro pr hpr; simp at hpr⟩
    · rw [findAndDoCombosHAux, if_neg hempty]
      constructor
      · apply Preserves.trans (preserves_halloc h (hget h rPrev))
        apply Preserves.trans (preserves_alloc_put _ _ _)
        apply Preserves.trans (preserves_alloc_put _ _ _)
        apply Preserves.trans (moveTilesDownH_frame s _ _ _ _).1
        exact (ih _ _ _ _).1
      · intro pr hpr
        simp only [List.mem_cons] at hpr
        rcases hpr with rfl | rfl | rfl | rfl | hpr
        · exact le_refl _
        · rw [halloc_fst_length]
          omega
        · rw [alloc_put_length, halloc_fst_length]
          omega
        · rw [moveTilesDownH_rGrav, alloc_put_length, alloc_put_length, halloc_fst_length]
          omega
        · have hrec := (ih _ _ _ _).2 pr hpr
          rw [moveTilesDownH_heap_length, alloc_put_length, alloc_put_length,
            halloc_fst_length] at hrec
          omega

theorem findAndDoCombosH_frame (s : RandomSupply) (fuel cnt : Nat) (r : Nat) (h : Heap) :
    Preserves h (findAndDoCombosH s fuel cnt r h).1 ∧
    ∀ pr ∈ (findAndDoCombosH s fuel cnt r h).2.1, h.length ≤ pr.1 := by
  constructor
  · apply Preserves.trans (preserves_halloc h (hget h r))
    exact (findAndDoCombosHAux_frame s fuel cnt _ _ _).1
  · intro pr hpr
    have hrec := (findAndDoCombosHAux_frame s fuel cnt
      (uniqueNewMatches (hget h r)) h.length (halloc h (hget h r)).1).2 pr hpr
    rw [halloc_fst_length] at hrec
    omega

/-- C8.  The heap model of `swapTile` never writes to the caller's board
slot: after the call every previously allocated slot — in particular the
input board — holds exactly the tiles it held before, and every snapshot
the call returns references either the input slot (the echo snapshots of
the rejecting paths) or a slot freshly allocated by the call itself. -/
theorem swapTileH_no_mutation (s : RandomSupply) (cnt fuel : Nat) (f t : Position) (r : Nat)
    (h : Heap) (hr : r < h.length) :
    (∀ r2 : Nat, r2 < h.length → hget (swapTileH s cnt fuel f t r h).1 r2 = hget h r2) ∧
    hget (swapTileH s cnt fuel f t r h).1 r = hget h r ∧
    ∀ pr ∈ (swapTileH s cnt fuel f t r h).2, pr.1 = r ∨ h.length ≤ pr.1 := by
  have hbranch : Preserves h (swapTileH s cnt fuel f t r h).1 ∧
      ∀ pr ∈ (swapTileH s cnt fuel f t r h).2, pr.1 = r ∨ h.length ≤ pr.1 := by
    simp only [swapTileH]
    split
    · refine ⟨preserves_halloc _ _, ?_⟩
      intro pr hpr
      simp only [List.mem_cons, List.not_mem_nil, or_false] at hpr
      subst hpr
      exact Or.inl rfl
    · split
      · refine ⟨preserves_alloc_put _ _ _, ?_⟩
        intro pr hpr
        simp only [List.mem_cons, List.not_mem_nil, or_false] at hpr
        rcases hpr with rfl | rfl
        · exact Or.inr (le_refl _)
        · exact Or.inl rfl
      · constructor
        · apply Preserves.trans (preserves_alloc_put _ _ _)
          apply Preserves.trans (preserves_halloc _ _)
          apply Preserves.trans (preserves_alloc_put _ _ _)
          apply Preserves.trans (preserves_alloc_put _ _ _)
          apply Preserves.trans (moveTilesDownH_frame s _ _ _ _).1
          exact (findAndDoCombosH_frame s _ _ _ _).1
        · intro pr hpr
          simp only [List.mem_cons] at hpr
          rcases hpr with rfl | rfl | rfl | rfl | rfl | hpr
          · exact Or.inr (le_refl _)
          · rw [alloc_put_length]
            exact Or.inr (by omega)
          · rw [halloc_fst_length, alloc_put_length]
            exact Or.inr (by omega)
          · rw [alloc_put_length, halloc_fst_length, alloc_put_length]
            exact Or.inr (by omega)
          · rw [moveTilesDownH_rGrav, alloc_put_length, alloc_put_length, halloc_fst_length,
              alloc_put_length]
            exact Or.inr (by omega)
          · have hrec := (findAndDoCombosH_frame s _ _ _ _).2 pr hpr
            rw [moveTilesDownH_heap_length, alloc_put_length, alloc_put_length,
              halloc_fst_length, alloc_put_length] at hrec
            exact Or.inr (by omega)
  exact ⟨hbranch.1.2, hbranch.1.2 r hr, hbranch.2⟩

theorem swapTileH_no_mutation_witness :
    0 < [bSwapEx].length ∧
    ((∀ r2 : Nat, r2 < [bSwapEx].length →
      hget (swapTileH exampleSupply 0 10 ⟨0, 0⟩ ⟨0, 1⟩ 0 [bSwapEx]).1 r2 =
        hget [bSwapEx] r2) ∧
    hget (swapTileH exampleSupply 0 10 ⟨0, 0⟩ ⟨0, 1⟩ 0 [bSwapEx]).1 0 = hget [bSwapEx] 0 ∧
    ∀ pr ∈ (swapTileH exampleSupply 0 10 ⟨0, 0⟩ ⟨0, 1⟩ 0 [bSwapEx]).2,
      pr.1 = 0 ∨ [bSwapEx].length ≤ pr.1) :=
  ⟨by decide, swapTileH_no_mutation exampleSupply 0 10 ⟨0, 0⟩ ⟨0, 1⟩ 0 [bSwapEx] (by decide)⟩

theorem uniqueNewMatches_spec_witness :
    (∀ m ∈ uniqueNewMatches bMatchful, m ∈ getMatchesOnBoard bMatchful) ∧
    (uniqueNewMatches bMatchful).Pairwise
      (fun m1 m2 => ∀ p ∈ matchPositions m1, p ∉ matchPositions m2) ∧
    (∀ c ∈ getMatchesOnBoard bMatchful, c ∉ uniqueNewMatches bMatchful →
      ∃ a ∈ uniqueNewMatches bMatchful, c.newValue ≤ a.newValue ∧
        ∃ p, p ∈ matchPositions a ∧ p ∈ matchPositions c) :=
  uniqueNewMatches_spec bMatchful

theorem getPositionsThatAlmostMatch_spec_witness :
    ((∀ pr : Position × Position, getPositionsThatAlmostMatch bHintEx = some pr →
      almostSwapMatches bHintEx pr = true ∧
      ∃ l1 l2, almostMatchCandidates bHintEx = l1 ++ pr :: l2 ∧
        ∀ q ∈ l1, almostSwapMatches bHintEx q = false) ∧
    (getPositionsThatAlmostMatch bHintEx = none ↔
      ∀ pr ∈ almostMatchCandidates bHintEx, almostSwapMatches bHintEx pr = false)) :=
  getPositionsThatAlmostMatch_spec bHintEx
